import Mathlib

/-!
Shallow embedding of the weather-app repository and proofs of the frozen
claims C1-C10.  The embedded sources are `amedas.py`,
`build_processed_csv.py`, `import_csv_to_sqlite.py`, `daily_average.py` and
`weather_streamlit_app.py`.

Modelling conventions:
* A pandas table is a list of rows; a missing value (`NaN`, `pd.NA`, `NaT`)
  is `none`.
* Machine floats occurring in data columns are modelled by `ℚ` (exact
  arithmetic); Python `int` is `ℤ`; strings are `String` / `List Char`.
* `harmonize_schema` and the `rename` maps of the repository act on column
  NAMES only (unit-suffixed name vs. plain name for the same physical
  quantity).  The embedding fixes one field per physical quantity, under the
  plain name, which makes those column renames the identity function; this
  is recorded at each definition concerned.
* Python `float(s)` is modelled on the finite-decimal fragment: optional
  sign, integer digits, optional fractional digits.  Exponents, underscore
  separators and `"inf"` do not occur in the scraped data.  `str.strip` and
  the case-insensitive `"nan"` test are modelled on ASCII.
-/

/-- ASCII whitespace recognised by Python `str.strip()` (the Unicode
whitespace outside this set does not occur in the data). -/
def isPySpace (c : Char) : Bool :=
  c == ' ' || c == '\t' || c == '\n' || c == '\r' || c == '\x0b' || c == '\x0c'

/-- Decimal digit test. -/
def isDig (c : Char) : Bool :=
  c == '0' || c == '1' || c == '2' || c == '3' || c == '4' ||
  c == '5' || c == '6' || c == '7' || c == '8' || c == '9'

/-- Value of a decimal digit character (0 for non-digits). -/
def digitVal (c : Char) : Nat :=
  if c == '1' then 1 else if c == '2' then 2 else if c == '3' then 3 else
  if c == '4' then 4 else if c == '5' then 5 else if c == '6' then 6 else
  if c == '7' then 7 else if c == '8' then 8 else if c == '9' then 9 else 0

/-- The decimal digit character for `n < 10` (junk value `'0'` above 9). -/
def digitChar (n : Nat) : Char :=
  if n == 1 then '1' else if n == 2 then '2' else if n == 3 then '3' else
  if n == 4 then '4' else if n == 5 then '5' else if n == 6 then '6' else
  if n == 7 then '7' else if n == 8 then '8' else if n == 9 then '9' else '0'

/-- Value of a big-endian string of decimal digits. -/
def digitsVal (l : List Char) : Nat :=
  l.foldl (fun a c => 10 * a + digitVal c) 0

/-- Python `str.strip()`: remove whitespace from both ends. -/
def pyStrip (l : List Char) : List Char :=
  ((l.dropWhile isPySpace).reverse.dropWhile isPySpace).reverse

/-- The test `s.lower() == "nan"` of `to_int_hour`, expressed directly:
the string is a 3-letter case-insensitive `nan`. -/
def isNanCI : List Char → Bool
  | [a, b, c] => (a == 'n' || a == 'N') && (b == 'a' || b == 'A') && (c == 'n' || c == 'N')
  | _ => false

/-- Split a decimal literal accepted by Python `float` (finite-decimal
fragment) into sign, integer digits and fractional digits.  At least one
digit must be present; nothing may follow the fractional digits. -/
def splitNumber (l : List Char) : Option (Bool × List Char × List Char) :=
  let p : Bool × List Char :=
    match l with
    | '-' :: t => (true, t)
    | '+' :: t => (false, t)
    | _ => (false, l)
  let ds := p.2.takeWhile isDig
  let r := p.2.dropWhile isDig
  match r with
  | [] => if ds.isEmpty then none else some (p.1, ds, [])
  | '.' :: r2 =>
    let fs := r2.takeWhile isDig
    if (r2.dropWhile isDig).isEmpty && !(ds.isEmpty && fs.isEmpty)
    then some (p.1, ds, fs) else none
  | _ => none

/-- The composite `int(float(s))` of `to_int_hour` on the finite-decimal
fragment: `int` truncates towards zero, so only the sign and the integer
digits contribute. -/
def intFloat (l : List Char) : Option Int :=
  (splitNumber l).map fun p =>
    if p.1 then -(digitsVal p.2.1 : Int) else (digitsVal p.2.1 : Int)

/-- Python `float(s)` on the finite-decimal fragment, with exact rational
value. -/
def parseFloatQ (l : List Char) : Option ℚ :=
  (splitNumber l).map fun p =>
    (if p.1 then (-1 : ℚ) else 1) *
      ((digitsVal p.2.1 : ℚ) + (digitsVal p.2.2 : ℚ) / (10 : ℚ) ^ p.2.2.length)

/-- Truncation towards zero, the rounding of Python `int(float)`. -/
def truncQ (q : ℚ) : Int :=
  if 0 ≤ q then ⌊q⌋ else -⌊-q⌋

/-- Fuel-driven digit expansion (structural recursion, so that it reduces
definitionally). -/
def natToStrF : Nat → Nat → List Char
  | 0, _ => []
  | f + 1, n => if n < 10 then [digitChar n] else natToStrF f (n / 10) ++ [digitChar (n % 10)]

/-- Decimal rendering of a natural number (Python `str` on `int ≥ 0`). -/
def natToStr (n : Nat) : List Char :=
  natToStrF (n + 1) n

/-- Decimal rendering of an integer (Python `str` on `int`). -/
def intToStr (h : Int) : List Char :=
  if h < 0 then '-' :: natToStr h.natAbs else natToStr h.toNat

/-- Python `int(s)` on strings: strip, optional sign, decimal digits only.
`none` models the `ValueError`. -/
def pyIntParse (l : List Char) : Option Int :=
  let t := pyStrip l
  let p : Bool × List Char :=
    match t with
    | '-' :: r => (true, r)
    | '+' :: r => (false, r)
    | _ => (false, t)
  if !p.2.isEmpty && p.2.all isDig then
    some (if p.1 then -(digitsVal p.2 : Int) else (digitsVal p.2 : Int))
  else none

/-- `amedas.to_int_hour`: coerce `'01' / '1' / 1 / '24'`-style cell values
to an hour.  `str(x)` of a missing cell is `"nan"` or `"<NA>"`, neither of
which reaches a successful parse, so the `none` cell maps to `none`. -/
def to_int_hour (x : Option String) : Option Int :=
  match x with
  | none => none
  | some s =>
    let t := pyStrip s.toList
    if t.isEmpty then none
    else if isNanCI t then none
    else
      match intFloat t with
      | none => none
      | some h => some (if h = 24 then 0 else h)

/-! ## Dates

`pd.to_datetime(x, errors="coerce").dt.strftime("%Y-%m-%d")` is modelled on
the zero-padded `YYYY-MM-DD` shape, the only shape that occurs in this
repository (the scraper emits `f"{year}-{month:02d}-{day:02d}"` and every
later stage re-reads what `strftime("%Y-%m-%d")` wrote).  Calendar validity
(month range, day-of-month range with leap years) is checked as pandas
does; the `pd.Timestamp` nanosecond range is not modelled. -/

structure Date where
  y : Nat
  m : Nat
  d : Nat
deriving DecidableEq, Repr

def isLeap (y : Nat) : Bool :=
  y % 4 == 0 && (y % 100 != 0 || y % 400 == 0)

def daysInMonth (y m : Nat) : Nat :=
  if m == 2 then (if isLeap y then 29 else 28)
  else if m == 4 || m == 6 || m == 9 || m == 11 then 30
  else 31

/-- The dates representable as a zero-padded `YYYY-MM-DD` string. -/
def ValidDate (d : Date) : Prop :=
  1 ≤ d.y ∧ d.y ≤ 9999 ∧ 1 ≤ d.m ∧ d.m ≤ 12 ∧ 1 ≤ d.d ∧ d.d ≤ daysInMonth d.y d.m

instance (d : Date) : Decidable (ValidDate d) := by
  unfold ValidDate; infer_instance

def parseDateL (l : List Char) : Option Date :=
  match l with
  | [y1, y2, y3, y4, '-', m1, m2, '-', d1, d2] =>
    if isDig y1 && isDig y2 && isDig y3 && isDig y4 &&
       isDig m1 && isDig m2 && isDig d1 && isDig d2 then
      if 1 ≤ digitsVal [y1, y2, y3, y4] ∧ 1 ≤ digitsVal [m1, m2] ∧
         digitsVal [m1, m2] ≤ 12 ∧ 1 ≤ digitsVal [d1, d2] ∧
         digitsVal [d1, d2] ≤ daysInMonth (digitsVal [y1, y2, y3, y4]) (digitsVal [m1, m2])
      then some ⟨digitsVal [y1, y2, y3, y4], digitsVal [m1, m2], digitsVal [d1, d2]⟩ else none
    else none
  | _ => none

/-- `pd.to_datetime(cell, errors="coerce")`: a missing cell gives `NaT`. -/
def parseDate : Option String → Option Date
  | none => none
  | some s => parseDateL s.toList

/-- `strftime("%Y-%m-%d")`. -/
def formatDate (d : Date) : String :=
  ⟨[digitChar (d.y / 1000), digitChar (d.y / 100 % 10), digitChar (d.y / 10 % 10),
    digitChar (d.y % 10), '-', digitChar (d.m / 10), digitChar (d.m % 10), '-',
    digitChar (d.d / 10), digitChar (d.d % 10)]⟩

/-! ## Rows

`COLUMNS` of `amedas.py` fixes the observation schema: hour key plus ten
observation columns.  `harmonize_schema` (amedas.py), the `rename_map` of
`build_processed_csv.py` and the `rename_map` of `weather_streamlit_app.py`
only move a column between its unit-suffixed name (`"気温(℃)"`) and its
plain name (`"気温"`); the embedding keeps one field per physical quantity,
so those renames are the identity on embedded rows. -/

/-- A table cell: `none` is pandas missing data. -/
abbrev Cell := Option String

/-- The ten observation columns of `COLUMNS` (after the key columns). -/
structure Obs where
  precip : Cell
  temp : Cell
  dew : Cell
  vapor : Cell
  humid : Cell
  wind : Cell
  windDir : Cell
  sunshine : Cell
  snowfall : Cell
  snowdepth : Cell
deriving DecidableEq, Repr

/-- A row with a date column of type `δ`, an hour column of type `η` and
observation columns of type `ω` (the column types change along the
normalization pipelines). -/
structure TRow (δ η ω : Type) where
  date : δ
  hour : η
  obs : ω
deriving DecidableEq, Repr

/-- A raw scraped / freshly-read CSV row: every column is a string cell. -/
abbrev RawRow := TRow Cell Cell Obs

/-- A normalized row: parsed date key, integer hour key. -/
abbrev NRow := TRow Date Int Obs

/-- One cell of `df.replace({"": pd.NA, "///": pd.NA})`. -/
def replaceCell (c : Cell) : Cell :=
  match c with
  | none => none
  | some s => if s = "" ∨ s = "///" then none else some s

def replaceObs (o : Obs) : Obs :=
  ⟨replaceCell o.precip, replaceCell o.temp, replaceCell o.dew, replaceCell o.vapor,
   replaceCell o.humid, replaceCell o.wind, replaceCell o.windDir,
   replaceCell o.sunshine, replaceCell o.snowfall, replaceCell o.snowdepth⟩

/-- `df.replace({"": pd.NA, "///": pd.NA})` on one row. -/
def replaceRow (r : RawRow) : RawRow :=
  ⟨replaceCell r.date, replaceCell r.hour, replaceObs r.obs⟩

/-! ## Keys and the key order

The upsert key is the column pair `(日付, 時刻)`; pandas sorts the
zero-padded date string lexicographically, which on parsed dates is the
lexicographic order on `(y, m, d)`. -/

abbrev Key := Nat × Nat × Nat × Int

def keyOf (r : NRow) : Key := (r.date.y, r.date.m, r.date.d, r.hour)

/-- Lexicographic `≤` on keys. -/
abbrev kLE (a b : Key) : Prop :=
  a.1 < b.1 ∨ (a.1 = b.1 ∧ (a.2.1 < b.2.1 ∨ (a.2.1 = b.2.1 ∧
    (a.2.2.1 < b.2.2.1 ∨ (a.2.2.1 = b.2.2.1 ∧ a.2.2.2 ≤ b.2.2.2)))))

/-- Lexicographic `<` on keys. -/
abbrev kLT (a b : Key) : Prop := kLE a b ∧ a ≠ b

/-- Row order used by `sort_values(["日付", "時刻"])`. -/
abbrev rowLE (a b : NRow) : Prop := kLE (keyOf a) (keyOf b)

/-- Strict row order (used to pin down sorted key-unique tables). -/
abbrev rowLT (a b : NRow) : Prop := kLT (keyOf a) (keyOf b)

def kLE_total (a b : Key) : kLE a b ∨ kLE b a := by
  rcases a with ⟨a1, a2, a3, a4⟩; rcases b with ⟨b1, b2, b3, b4⟩
  dsimp [kLE]; omega

def kLE_trans {a b c : Key} (h1 : kLE a b) (h2 : kLE b c) : kLE a c := by
  rcases a with ⟨a1, a2, a3, a4⟩; rcases b with ⟨b1, b2, b3, b4⟩
  rcases c with ⟨c1, c2, c3, c4⟩
  dsimp [kLE] at h1 h2 ⊢; omega

def kLE_antisymm {a b : Key} (h1 : kLE a b) (h2 : kLE b a) : a = b := by
  rcases a with ⟨a1, a2, a3, a4⟩; rcases b with ⟨b1, b2, b3, b4⟩
  dsimp [kLE] at h1 h2
  simp only [Prod.mk.injEq]; omega

instance : IsTotal NRow rowLE := ⟨fun a b => kLE_total (keyOf a) (keyOf b)⟩

instance : IsTrans NRow rowLE := ⟨fun _ _ _ h1 h2 => kLE_trans h1 h2⟩

instance : IsTrans NRow rowLT :=
  ⟨fun _ _ _ h1 h2 => ⟨kLE_trans h1.1 h2.1,
    fun he => h2.2 (kLE_antisymm h2.1 (he ▸ h1.1))⟩⟩

instance : IsAntisymm NRow rowLT :=
  ⟨fun _ _ h1 h2 => absurd (kLE_antisymm h1.1 h2.1) h1.2⟩

/-! ## Deduplication (`drop_duplicates(subset=key, keep="last")`) -/

/-- `drop_duplicates(keep="last")` along a key function: a row survives iff
no later row carries the same key. -/
def dropDupKeepLast {α κ : Type} [DecidableEq κ] (key : α → κ) : List α → List α
  | [] => []
  | a :: l =>
    if l.any (fun b => decide (key b = key a)) then dropDupKeepLast key l
    else a :: dropDupKeepLast key l

/-- The last row of `l` whose key is `k`, if any (specification-side notion
of "the latest occurrence of a key"). -/
def lastWithKey {α κ : Type} [DecidableEq κ] (key : α → κ) (k : κ) : List α → Option α
  | [] => none
  | a :: l =>
    match lastWithKey key k l with
    | some b => some b
    | none => if key a = k then some a else none

/-! ## `amedas.normalize_df` -/

/-- `normalize_df`: unify missing-value markers, coerce the date column,
coerce the hour column, drop rows with a missing key, sort by the key.
Each `let` is one pandas statement of the source function. -/
def normalize_df (t : List RawRow) : List NRow :=
  let t1 := t.map replaceRow
  let t2 := t1.map fun r => TRow.mk (parseDate r.date) r.hour r.obs
  let t3 := t2.map fun r => TRow.mk r.date (to_int_hour r.hour) r.obs
  let t4 := t3.filterMap fun r =>
    match r.date, r.hour with
    | some d, some h => some (TRow.mk d h r.obs)
    | _, _ => none
  List.insertionSort rowLE t4

/-! ## `amedas.upsert_to_processed_csv` -/

/-- `harmonize_schema` moves each unit-suffixed column into the plain-named
column (`fillna` + `drop`).  On the fixed one-field-per-quantity schema of
the embedding it is the identity. -/
def harmonize_schema : List NRow → List NRow := id

/-- The merge core shared by both branches of `upsert_to_processed_csv`:
concatenate, deduplicate on `(日付, 時刻)` keeping the last occurrence,
sort by the key. -/
def mergeTables (dfOld dfNew : List NRow) : List NRow :=
  List.insertionSort rowLE (dropDupKeepLast keyOf (dfOld ++ dfNew))

/-- `upsert_to_processed_csv`.  The first argument is the persisted CSV
(`none` when the file does not exist); the result is the table written
back.  In the file-exists branch both sides are normalized and
harmonized before the merge, exactly as in the source. -/
def upsert_to_processed_csv (dfOldCsv : Option (List RawRow)) (dfNew : List RawRow) : List NRow :=
  match dfOldCsv with
  | some dfOld =>
    mergeTables (harmonize_schema (normalize_df dfOld)) (harmonize_schema (normalize_df dfNew))
  | none => mergeTables [] (normalize_df dfNew)

/-- Serialization of a written row as it is read back by the next run
(`to_csv` then `read_csv`): the date is the `strftime` string, the hour its
decimal rendering, observation cells round-trip unchanged. -/
def toRawRow (r : NRow) : RawRow :=
  ⟨some (formatDate r.date), some ⟨intToStr r.hour⟩, r.obs⟩

def toRawTable (t : List NRow) : List RawRow := t.map toRawRow

/-! ## Well-formed normalized rows and the serialization round trip -/

/-- The fused one-row form of the `normalize_df` pipeline: markers
replaced, date parsed, hour parsed, `none` when either key is missing. -/
def normRow (r : RawRow) : Option NRow :=
  match parseDate (replaceRow r).date, to_int_hour (replaceRow r).hour with
  | some d, some h => some ⟨d, h, (replaceRow r).obs⟩
  | _, _ => none

/-- Invariant of rows produced by `normalize_df`: a calendar-valid date, an
hour other than 24, and data cells free of the missing-value markers. -/
def WFRow (r : NRow) : Prop :=
  ValidDate r.date ∧ r.hour ≠ 24 ∧ replaceObs r.obs = r.obs

/-! ## `build_processed_csv.py`

Rebuild of the processed CSV from the raw monthly CSVs: concatenate (with a
`__source` tag that the final `keep` projection drops again, so it is not
materialised), coerce the date and hour columns, coerce the numeric data
columns, drop rows with a missing key, sort by `(日付, 時刻)` and then
deduplicate keeping the last occurrence.  The hour is `pd.to_numeric`, a
float, not an integer, in this script. -/

/-- `pd.to_numeric(cell, errors="coerce")`. -/
def parseNumQ : Cell → Option ℚ
  | none => none
  | some s => parseFloatQ (pyStrip s.toList)

/-- Observation columns after the numeric coercion of
`build_processed_csv.py` (`風向` stays a string). -/
structure ObsQ where
  precip : Option ℚ
  temp : Option ℚ
  dew : Option ℚ
  vapor : Option ℚ
  humid : Option ℚ
  wind : Option ℚ
  windDir : Cell
  sunshine : Option ℚ
  snowfall : Option ℚ
  snowdepth : Option ℚ
deriving DecidableEq, Repr

def toNumericObs (o : Obs) : ObsQ :=
  ⟨parseNumQ o.precip, parseNumQ o.temp, parseNumQ o.dew, parseNumQ o.vapor,
   parseNumQ o.humid, parseNumQ o.wind, o.windDir, parseNumQ o.sunshine,
   parseNumQ o.snowfall, parseNumQ o.snowdepth⟩

/-- A row of the rebuilt processed table. -/
abbrev BRow := TRow Date ℚ ObsQ

abbrev BKey := Nat × Nat × Nat × ℚ

def bkeyOf (r : BRow) : BKey := (r.date.y, r.date.m, r.date.d, r.hour)

/-- Lexicographic `≤` on build keys (float hour). -/
abbrev bkLE (a b : BKey) : Prop :=
  a.1 < b.1 ∨ (a.1 = b.1 ∧ (a.2.1 < b.2.1 ∨ (a.2.1 = b.2.1 ∧
    (a.2.2.1 < b.2.2.1 ∨ (a.2.2.1 = b.2.2.1 ∧ a.2.2.2 ≤ b.2.2.2)))))

abbrev bRowLE (a b : BRow) : Prop := bkLE (bkeyOf a) (bkeyOf b)

/-- `build_processed_csv.py` main pipeline.  The argument is the list of
raw CSV files (name, rows) in `sorted(...)` order; the `rename_map` is the
identity on the fixed schema. -/
def build_processed_csv (files : List (String × List RawRow)) : List BRow :=
  let all_df := (files.map fun f => f.2).flatten
  let t1 := all_df.map fun r => TRow.mk (parseDate r.date) r.hour r.obs
  let t2 := t1.map fun r => TRow.mk r.date (parseNumQ r.hour) r.obs
  let t3 := t2.map fun r => TRow.mk r.date r.hour (toNumericObs r.obs)
  let t4 := t3.filterMap fun r =>
    match r.date, r.hour with
    | some d, some q => some (TRow.mk d q r.obs)
    | _, _ => none
  dropDupKeepLast bkeyOf (List.insertionSort bRowLE t4)

/-! ## `import_csv_to_sqlite.py`

`INSERT OR REPLACE` into a table with `PRIMARY KEY (date, hour)`: the
conflicting stored row is deleted and the new row inserted.  The database
is a list of rows; a run that raises (a non-numeric, non-empty hour makes
`int(row['時刻'])` raise `ValueError`) is `none`. -/

/-- One `csv.DictReader` row: plain strings, no missing-value handling. -/
structure ObsS where
  precip : String
  temp : String
  dew : String
  vapor : String
  humid : String
  wind : String
  windDir : String
  sunshine : String
  snowfall : String
  snowdepth : String
deriving DecidableEq, Repr

abbrev SRow := TRow String String ObsS

/-- Stored SQLite row: text date, integer hour, nullable text values. -/
abbrev DbRow := TRow String Int Obs

def dkeyOf (r : DbRow) : String × Int := (r.date, r.hour)

/-- `parse_value`: `None` for `'///'` and empty, else the stripped value. -/
def parse_value (v : String) : Option String :=
  if pyStrip v.toList = "///".toList ∨ pyStrip v.toList = [] then none
  else some ⟨pyStrip v.toList⟩

/-- `INSERT OR REPLACE`: drop any row with the same primary key, append
the new row. -/
def insert_or_replace (db : List DbRow) (r : DbRow) : List DbRow :=
  (db.filter fun x => !(decide (dkeyOf x = dkeyOf r))) ++ [r]

/-- One loop iteration of the import: skip rows with an empty hour,
otherwise parse the hour with `int(...)` and upsert. -/
def import_row (db : List DbRow) (r : SRow) : Option (List DbRow) :=
  if pyStrip r.hour.toList = [] then some db
  else
    match pyIntParse r.hour.toList with
    | none => none
    | some h =>
      some (insert_or_replace db (TRow.mk r.date h
        ⟨parse_value r.obs.precip, parse_value r.obs.temp, parse_value r.obs.dew,
         parse_value r.obs.vapor, parse_value r.obs.humid, parse_value r.obs.wind,
         parse_value r.obs.windDir, parse_value r.obs.sunshine,
         parse_value r.obs.snowfall, parse_value r.obs.snowdepth⟩))

/-- The reader loop over the rows of the monthly CSV files. -/
def import_csv_rows (db : List DbRow) : List SRow → Option (List DbRow)
  | [] => some db
  | r :: rs =>
    match import_row db r with
    | none => none
    | some db2 => import_csv_rows db2 rs

/-- `SELECT * FROM weather WHERE date = ? AND hour = ?` (first match). -/
def lookupKey (db : List DbRow) (k : String × Int) : Option DbRow :=
  db.find? fun x => decide (dkeyOf x = k)

/-! ## `weather_streamlit_app.py`: GDD and the time-window filter -/

/-- `BASE_TEMP_DEFAULT` of the app. -/
def BASE_TEMP_DEFAULT : ℚ := 10

/-- A row of the daily table handed to `add_gdd_columns` (`日付` string
column, `気温（平均）`, and the remaining daily aggregate columns). -/
structure DRow where
  date : Cell
  tempAvg : Option ℚ
  rest : List (Option ℚ)
deriving DecidableEq, Repr

/-- After `日付_dt` is computed and its missing rows dropped. -/
structure GRow1 where
  date : Cell
  tempAvg : Option ℚ
  rest : List (Option ℚ)
  dateDt : Date
deriving DecidableEq, Repr

/-- After the `GDD` column is added. -/
structure GRow2 where
  date : Cell
  tempAvg : Option ℚ
  rest : List (Option ℚ)
  dateDt : Date
  gdd : Option ℚ
deriving DecidableEq, Repr

/-- After the `累積GDD` column is added. -/
structure GRow3 where
  date : Cell
  tempAvg : Option ℚ
  rest : List (Option ℚ)
  dateDt : Date
  gdd : Option ℚ
  cum : Option ℚ
deriving DecidableEq, Repr

/-- Lexicographic `≤` on dates (= the `sort_values("日付_dt")` order). -/
abbrev dateLE (a b : Date) : Prop :=
  a.y < b.y ∨ (a.y = b.y ∧ (a.m < b.m ∨ (a.m = b.m ∧ a.d ≤ b.d)))

abbrev gRowLE (a b : GRow1) : Prop := dateLE a.dateDt b.dateDt

/-- `strftime("%m-%d") >= GDD_START_MMDD` with `GDD_START_MMDD = "04-01"`:
on zero-padded month-day strings the lexicographic string comparison is
the lexicographic comparison of `(m, d)` with `(4, 1)`. -/
def gddStartLE (d : Date) : Prop :=
  4 < d.m ∨ (4 = d.m ∧ 1 ≤ d.d)

instance (d : Date) : Decidable (gddStartLE d) := by
  unfold gddStartLE; infer_instance

/-- `out.groupby(out["日付_dt"].dt.year)["GDD"].cumsum()`: running sum of
the non-missing `GDD` values per calendar year (`skipna` semantics: a
missing `GDD` gives a missing cumulative value and does not advance the
sum).  The accumulator maps a year to its running sum. -/
def gddCumsum (acc : Nat → ℚ) : List GRow2 → List GRow3
  | [] => []
  | r :: rs =>
    match r.gdd with
    | none => ⟨r.date, r.tempAvg, r.rest, r.dateDt, r.gdd, none⟩ :: gddCumsum acc rs
    | some g =>
      ⟨r.date, r.tempAvg, r.rest, r.dateDt, r.gdd, some (acc r.dateDt.y + g)⟩ ::
        gddCumsum (fun y => if y = r.dateDt.y then acc r.dateDt.y + g else acc y) rs

/-- `add_gdd_columns(daily_df, base_temp)`: compute `日付_dt`, drop its
missing rows, sort by it, keep month-day `>= "04-01"`, add
`GDD = (気温（平均） - base_temp).clip(lower=0)` and the per-year running
`累積GDD`. -/
def add_gdd_columns (daily_df : List DRow) (base_temp : ℚ) : List GRow3 :=
  let out1 := daily_df.filterMap fun r =>
    (parseDate r.date).map fun d => GRow1.mk r.date r.tempAvg r.rest d
  let out2 := List.insertionSort gRowLE out1
  let out3 := out2.filter fun r => decide (gddStartLE r.dateDt)
  let out4 := out3.map fun r =>
    GRow2.mk r.date r.tempAvg r.rest r.dateDt
      (r.tempAvg.map fun t => max 0 (t - base_temp))
  gddCumsum (fun _ => 0) out4

/-- The call with the default base temperature (`base_temp: float = BASE_TEMP_DEFAULT`). -/
def add_gdd_columns_default (daily_df : List DRow) : List GRow3 :=
  add_gdd_columns daily_df BASE_TEMP_DEFAULT

/-- A row of the hourly table as the app reads it (`日付` string column,
precomputed `日付_dt`, integer `時刻`, numeric data columns). -/
structure FRow where
  date : Cell
  dateDt : Option Date
  hour : Int
  vals : List (Option ℚ)
deriving DecidableEq, Repr

/-- `filter_by_time_window(src, year, month, start_hour, end_hour)`.
`NaT.dt.year` compares unequal to any year, so rows without `日付_dt` are
dropped by the year filter.  After filtering, the `日付` string column is
re-rendered from `日付_dt`. -/
def filter_by_time_window (src : List FRow) (year : Nat) (month : Option Nat)
    (start_hour end_hour : Int) : List FRow :=
  let base := src.filter fun r =>
    match r.dateDt with
    | some d => decide (d.y = year)
    | none => false
  let base2 :=
    match month with
    | none => base
    | some m =>
      base.filter fun r =>
        match r.dateDt with
        | some d => decide (d.m = m)
        | none => false
  let base3 :=
    if start_hour ≤ end_hour then
      base2.filter fun r => decide (start_hour ≤ r.hour ∧ r.hour ≤ end_hour)
    else
      base2.filter fun r => decide (start_hour ≤ r.hour ∨ r.hour ≤ end_hour)
  base3.map fun r => { r with date := r.dateDt.map formatDate }

/-! ## Helper lemmas for the GDD claims -/

/-- Sum of the present GDD values among the pairs `(year, GDD)` whose year
is `y` (specification-side notion of "running sum within a calendar
year"). -/
def sumYear (y : Nat) (pl : List (Nat × Option ℚ)) : ℚ :=
  ((pl.filter fun p => decide (p.1 = y)).filterMap fun p => p.2).sum

def projG2 (r : GRow2) : Nat × Option ℚ := (r.dateDt.y, r.gdd)

def projG3 (r : GRow3) : Nat × Option ℚ := (r.dateDt.y, r.gdd)

/-- The prefix of `add_gdd_columns` before the cumulative sum: `日付_dt`,
dropna, sort, 4/1-filter, `GDD` column. -/
def gddPrep (daily_df : List DRow) (base_temp : ℚ) : List GRow2 :=
  ((List.insertionSort gRowLE (daily_df.filterMap fun r =>
      (parseDate r.date).map fun d => GRow1.mk r.date r.tempAvg r.rest d)).filter
    fun r => decide (gddStartLE r.dateDt)).map
    fun r => GRow2.mk r.date r.tempAvg r.rest r.dateDt
      (r.tempAvg.map fun t => max 0 (t - base_temp))

def forget2 (r : GRow2) : GRow1 := ⟨r.date, r.tempAvg, r.rest, r.dateDt⟩

def forget3 (r : GRow3) : GRow1 := ⟨r.date, r.tempAvg, r.rest, r.dateDt⟩

/-- The claim-side reading of `to_int_hour`: missing for the empty string,
a case-insensitive `nan`, or an unparseable value; otherwise the integer
part of the numeric value, with 24 mapped to 0. -/
def to_int_hour_spec (x : Option String) : Option Int :=
  match x with
  | none => none
  | some s =>
    let t := pyStrip s.toList
    if t.isEmpty then none
    else if isNanCI t then none
    else
      match parseFloatQ t with
      | none => none
      | some q => some (if truncQ q = 24 then 0 else truncQ q)

/-! ## Witness data -/

def obsNone : Obs := ⟨none, none, none, none, none, none, none, none, none, none⟩

def obsRain : Obs := ⟨some "9", none, none, none, none, none, none, none, none, none⟩

/-- A persisted row `2026-02-02 01:00` with empty observations. -/
def wRowA : NRow := ⟨⟨2026, 2, 2⟩, 1, obsNone⟩

/-- A re-scraped row for the same key with a filled observation. -/
def wRowB : NRow := ⟨⟨2026, 2, 2⟩, 1, obsRain⟩

/-- A row under a different key. -/
def wRowC : NRow := ⟨⟨2026, 2, 3⟩, 5, obsNone⟩

def wRawA : RawRow := ⟨some "2026-02-02", some "1", obsNone⟩

def wRaw24 : RawRow := ⟨some "2026-02-02", some "24", obsNone⟩

def wRaw0 : RawRow := ⟨some "2026-02-02", some "0", obsRain⟩

def wSRow : SRow := ⟨"2026-02-02", "1", ⟨"0.5", "1.2", "", "", "80", "2.0", "北", "///", "", ""⟩⟩

def wDbOld : DbRow := ⟨"2026-02-02", 1, obsNone⟩

def wDbNew : DbRow := ⟨"2026-02-02", 1, obsRain⟩

/-- What the import loop builds from `wSRow`. -/
def wDbImported : DbRow :=
  ⟨"2026-02-02", 1, ⟨some "0.5", some "1.2", none, none, some "80", some "2.0",
    some "北", none, none, none⟩⟩

def wDRow : DRow := ⟨some "2026-04-02", some 0, []⟩

def wFRow : FRow := ⟨some "2026-02-02", some ⟨2026, 2, 2⟩, 23, []⟩

/-! ## Theorems -/

example : to_int_hour (some " 24 ") = some 0 := by decide
example : to_int_hour (some "1.5") = some 1 := by decide
example : to_int_hour (some "NaN") = none := by decide
example : to_int_hour (some "///") = none := by decide
example : to_int_hour (some "-3") = some (-3) := by decide
example : pyIntParse " 12 ".toList = some 12 := by decide
example : pyIntParse "1.5".toList = none := by decide
example : intFloat "-2.50".toList = some (-2) := by decide
example : intToStr (-120) = ['-', '1', '2', '0'] := by rfl

example : parseDate (some "2026-02-28") = some ⟨2026, 2, 28⟩ := by decide
example : parseDate (some "2026-02-29") = none := by decide
example : parseDate (some "2024-02-29") = some ⟨2024, 2, 29⟩ := by decide
example : formatDate ⟨2026, 2, 3⟩ = "2026-02-03" := by decide

/-! ## Basic lemmas about digits and decimal strings -/

theorem isDig_spec {c : Char} (h : isDig c = true) :
    c = '0' ∨ c = '1' ∨ c = '2' ∨ c = '3' ∨ c = '4' ∨
    c = '5' ∨ c = '6' ∨ c = '7' ∨ c = '8' ∨ c = '9' := by
  simp [isDig] at h
  tauto

theorem digitVal_le_nine (c : Char) : digitVal c ≤ 9 := by
  unfold digitVal; split_ifs <;> omega

theorem isDig_digitChar {n : Nat} (h : n < 10) : isDig (digitChar n) = true := by
  interval_cases n <;> rfl

theorem digitChar_isDig (n : Nat) : isDig (digitChar n) = true := by
  unfold digitChar; split_ifs <;> rfl

theorem digitVal_digitChar {n : Nat} (h : n < 10) : digitVal (digitChar n) = n := by
  interval_cases n <;> rfl

theorem digitsVal_foldl (l : List Char) (a : Nat) :
    l.foldl (fun a c => 10 * a + digitVal c) a = a * 10 ^ l.length + digitsVal l := by
  induction l generalizing a with
  | nil => simp [digitsVal]
  | cons c t ih =>
    simp only [List.foldl_cons, List.length_cons, digitsVal]
    rw [ih (10 * a + digitVal c), ih (10 * 0 + digitVal c)]
    ring

theorem digitsVal_cons (c : Char) (l : List Char) :
    digitsVal (c :: l) = digitVal c * 10 ^ l.length + digitsVal l := by
  simp only [digitsVal, List.foldl_cons]
  rw [digitsVal_foldl]
  simp [digitsVal]

theorem digitsVal_append_singleton (l : List Char) (c : Char) :
    digitsVal (l ++ [c]) = 10 * digitsVal l + digitVal c := by
  simp only [digitsVal, List.foldl_append, List.foldl_cons, List.foldl_nil]

theorem digitsVal_lt (l : List Char) : digitsVal l < 10 ^ l.length := by
  induction l with
  | nil => simp [digitsVal]
  | cons c t ih =>
    rw [digitsVal_cons]
    have h9 := digitVal_le_nine c
    have : digitVal c * 10 ^ t.length ≤ 9 * 10 ^ t.length :=
      Nat.mul_le_mul_right _ h9
    calc digitVal c * 10 ^ t.length + digitsVal t
        < digitVal c * 10 ^ t.length + 10 ^ t.length := by omega
      _ ≤ 9 * 10 ^ t.length + 10 ^ t.length := by omega
      _ = 10 ^ (t.length + 1) := by ring
      _ = 10 ^ (c :: t).length := by simp

/-! ## `natToStr` round trip -/

theorem natToStrF_fuel : ∀ (f1 f2 n : Nat), n < f1 → n < f2 →
    natToStrF f1 n = natToStrF f2 n := by
  intro f1
  induction f1 with
  | zero => intro f2 n h; omega
  | succ f ih =>
    intro f2 n h1 h2
    match f2, h2 with
    | g + 1, h2 =>
      simp only [natToStrF]
      by_cases hn : n < 10
      · simp [hn]
      · simp only [hn, if_false]
        have hd : n / 10 < n := Nat.div_lt_self (by omega) (by omega)
        rw [ih g (n / 10) (by omega) (by omega)]

theorem natToStr_eq (n : Nat) :
    natToStr n = if n < 10 then [digitChar n] else natToStr (n / 10) ++ [digitChar (n % 10)] := by
  unfold natToStr
  conv_lhs => rw [natToStrF]
  by_cases hn : n < 10
  · simp [hn]
  · simp only [hn, if_false]
    have hd : n / 10 < n := Nat.div_lt_self (by omega) (by omega)
    rw [natToStrF_fuel n (n / 10 + 1) (n / 10) (by omega) (by omega)]

theorem natToStr_ne_nil (n : Nat) : natToStr n ≠ [] := by
  rw [natToStr_eq]
  split_ifs <;> simp

theorem natToStr_all_dig (n : Nat) : ∀ c ∈ natToStr n, isDig c = true := by
  induction n using Nat.strong_induction_on with
  | _ n ih =>
    rw [natToStr_eq]
    by_cases hn : n < 10
    · simp only [hn, if_true, List.mem_singleton]
      rintro c rfl
      exact isDig_digitChar hn
    · simp only [hn, if_false, List.mem_append, List.mem_singleton]
      rintro c (hc | rfl)
      · exact ih (n / 10) (Nat.div_lt_self (by omega) (by omega)) c hc
      · exact digitChar_isDig _

theorem digitsVal_natToStr (n : Nat) : digitsVal (natToStr n) = n := by
  induction n using Nat.strong_induction_on with
  | _ n ih =>
    rw [natToStr_eq]
    by_cases hn : n < 10
    · simp only [hn, if_true]
      rw [digitsVal_cons]
      simp [digitsVal, digitVal_digitChar hn]
    · simp only [hn, if_false]
      rw [digitsVal_append_singleton,
        ih (n / 10) (Nat.div_lt_self (by omega) (by omega)),
        digitVal_digitChar (Nat.mod_lt _ (by omega))]
      omega

/-! ## `pyStrip`, `isNanCI` and `splitNumber` on clean strings -/

theorem dropWhile_eq_self_of_none {p : Char → Bool} {l : List Char}
    (h : ∀ c ∈ l, p c = false) : l.dropWhile p = l := by
  cases l with
  | nil => rfl
  | cons c t =>
    rw [List.dropWhile_cons_of_neg]
    simp [h c (List.mem_cons_self c t)]

theorem pyStrip_eq_self {l : List Char} (h : ∀ c ∈ l, isPySpace c = false) :
    pyStrip l = l := by
  unfold pyStrip
  rw [dropWhile_eq_self_of_none h, dropWhile_eq_self_of_none, List.reverse_reverse]
  intro c hc
  exact h c (List.mem_reverse.mp hc)

theorem isDig_not_space {c : Char} (h : isDig c = true) : isPySpace c = false := by
  rcases isDig_spec h with rfl | rfl | rfl | rfl | rfl | rfl | rfl | rfl | rfl | rfl <;> rfl

theorem isDig_ne_chars {c : Char} (h : isDig c = true) :
    c ≠ 'n' ∧ c ≠ 'N' ∧ c ≠ '-' ∧ c ≠ '+' ∧ c ≠ '/' := by
  rcases isDig_spec h with rfl | rfl | rfl | rfl | rfl | rfl | rfl | rfl | rfl | rfl <;>
    exact ⟨by decide, by decide, by decide, by decide, by decide⟩

theorem isNanCI_false_of_head {a : Char} (l : List Char)
    (h1 : a ≠ 'n') (h2 : a ≠ 'N') : isNanCI (a :: l) = false := by
  unfold isNanCI
  match l with
  | [] => rfl
  | [_] => rfl
  | [b, c] => simp [h1, h2]
  | _ :: _ :: _ :: _ => rfl

theorem takeWhile_all {p : Char → Bool} {l : List Char} (h : ∀ c ∈ l, p c = true) :
    l.takeWhile p = l :=
  List.takeWhile_eq_self_iff.mpr h

theorem dropWhile_all {p : Char → Bool} {l : List Char} (h : ∀ c ∈ l, p c = true) :
    l.dropWhile p = [] :=
  List.dropWhile_eq_nil_iff.mpr h

/-- `splitNumber` on a nonempty all-digit string: no sign, no fraction. -/
theorem splitNumber_digits {l : List Char} (hne : l ≠ [])
    (hd : ∀ c ∈ l, isDig c = true) : splitNumber l = some (false, l, []) := by
  unfold splitNumber
  match l, hne with
  | c :: t, _ =>
    have hc := hd c (List.mem_cons_self c t)
    have hcs := isDig_ne_chars hc
    have hsplit : (match c :: t with
        | '-' :: t => (true, t)
        | '+' :: t => (false, t)
        | _ => (false, c :: t)) = (false, c :: t) := by
      split
      · next heq => cases heq; exact absurd rfl hcs.2.2.1
      · next heq => cases heq; exact absurd rfl hcs.2.2.2.1
      · rfl
    rw [hsplit]
    simp only
    rw [takeWhile_all hd, dropWhile_all hd]
    simp

/-- `splitNumber` on a minus sign followed by a nonempty all-digit string. -/
theorem splitNumber_neg_digits {l : List Char} (hne : l ≠ [])
    (hd : ∀ c ∈ l, isDig c = true) :
    splitNumber ('-' :: l) = some (true, l, []) := by
  unfold splitNumber
  simp only
  rw [takeWhile_all hd, dropWhile_all hd]
  simp [hne]

theorem intFloat_natToStr (n : Nat) : intFloat (natToStr n) = some (n : Int) := by
  unfold intFloat
  rw [splitNumber_digits (natToStr_ne_nil n) (natToStr_all_dig n)]
  simp [digitsVal_natToStr]

theorem intFloat_intToStr (h : Int) : intFloat (intToStr h) = some h := by
  unfold intToStr
  by_cases hneg : h < 0
  · simp only [hneg, if_true]
    unfold intFloat
    rw [splitNumber_neg_digits (natToStr_ne_nil _) (natToStr_all_dig _)]
    have habs : ((h.natAbs : Nat) : Int) = -h := by omega
    simp [digitsVal_natToStr, habs]
  · simp only [hneg, if_false]
    rw [intFloat_natToStr]
    congr 1
    omega

theorem intToStr_all_ok (h : Int) :
    ∀ c ∈ intToStr h, c = '-' ∨ isDig c = true := by
  unfold intToStr
  split_ifs
  · intro c hc
    rcases List.mem_cons.mp hc with rfl | hc
    · exact Or.inl rfl
    · exact Or.inr (natToStr_all_dig _ c hc)
  · intro c hc
    exact Or.inr (natToStr_all_dig _ c hc)

theorem intToStr_ne_nil (h : Int) : intToStr h ≠ [] := by
  unfold intToStr
  split_ifs
  · simp
  · exact natToStr_ne_nil _

/-- `to_int_hour` inverts the decimal rendering of any hour other than 24. -/
theorem to_int_hour_intToStr {h : Int} (h24 : h ≠ 24) :
    to_int_hour (some ⟨intToStr h⟩) = some h := by
  unfold to_int_hour
  simp only [String.toList]
  have hsp : ∀ c ∈ intToStr h, isPySpace c = false := by
    intro c hc
    rcases intToStr_all_ok h c hc with rfl | hd
    · rfl
    · exact isDig_not_space hd
  rw [pyStrip_eq_self hsp]
  have hne : (intToStr h).isEmpty = false := by
    cases hl : intToStr h with
    | nil => exact absurd hl (intToStr_ne_nil h)
    | cons c t => rfl
  rw [hne]
  simp only [Bool.false_eq_true, if_false]
  have hnan : isNanCI (intToStr h) = false := by
    cases hl : intToStr h with
    | nil => exact absurd hl (intToStr_ne_nil h)
    | cons c t =>
      have hc : c ∈ intToStr h := by rw [hl]; exact List.mem_cons_self c t
      rcases intToStr_all_ok h c hc with rfl | hd
      · exact isNanCI_false_of_head t (by decide) (by decide)
      · have := isDig_ne_chars hd
        exact isNanCI_false_of_head t this.1 this.2.1
  rw [hnan]
  simp only [Bool.false_eq_true, if_false]
  rw [intFloat_intToStr]
  simp [h24]

/-! ## Date parsing lemmas -/

theorem daysInMonth_le (y m : Nat) : daysInMonth y m ≤ 31 := by
  unfold daysInMonth
  split_ifs <;> omega

theorem parseDateL_valid {l : List Char} {d : Date} (h : parseDateL l = some d) :
    ValidDate d := by
  unfold parseDateL at h
  split at h
  · next y1 y2 y3 y4 m1 m2 d1 d2 =>
    split_ifs at h with hdig hrange
    injection h with h
    subst h
    have h4 : digitsVal [y1, y2, y3, y4] < 10 ^ 4 := digitsVal_lt _
    simp only [List.length_cons, List.length_nil] at h4
    exact ⟨hrange.1, by dsimp only; omega, hrange.2.1, hrange.2.2.1, hrange.2.2.2.1,
      hrange.2.2.2.2⟩
  · exact absurd h (by simp)

theorem parseDate_valid {c : Cell} {d : Date} (h : parseDate c = some d) :
    ValidDate d := by
  cases c with
  | none => simp [parseDate] at h
  | some s => exact parseDateL_valid h

theorem formatDate_parse {d : Date} (h : ValidDate d) :
    parseDate (some (formatDate d)) = some d := by
  obtain ⟨h1, h2, h3, h4, h5, h6⟩ := h
  unfold parseDate formatDate parseDateL
  simp only [String.toList]
  have hdm := daysInMonth_le d.y d.m
  have hy1 : d.y / 1000 < 10 := by omega
  have hy2 : d.y / 100 % 10 < 10 := by omega
  have hy3 : d.y / 10 % 10 < 10 := by omega
  have hy4 : d.y % 10 < 10 := by omega
  have hm1 : d.m / 10 < 10 := by omega
  have hm2 : d.m % 10 < 10 := by omega
  have hd1 : d.d / 10 < 10 := by omega
  have hd2 : d.d % 10 < 10 := by omega
  rw [if_pos]
  · have hyv : digitsVal [digitChar (d.y / 1000), digitChar (d.y / 100 % 10),
        digitChar (d.y / 10 % 10), digitChar (d.y % 10)] = d.y := by
      simp only [digitsVal, List.foldl_cons, List.foldl_nil,
        digitVal_digitChar hy1, digitVal_digitChar hy2,
        digitVal_digitChar hy3, digitVal_digitChar hy4]
      omega
    have hmv : digitsVal [digitChar (d.m / 10), digitChar (d.m % 10)] = d.m := by
      simp only [digitsVal, List.foldl_cons, List.foldl_nil,
        digitVal_digitChar hm1, digitVal_digitChar hm2]
      omega
    have hdv : digitsVal [digitChar (d.d / 10), digitChar (d.d % 10)] = d.d := by
      simp only [digitsVal, List.foldl_cons, List.foldl_nil,
        digitVal_digitChar hd1, digitVal_digitChar hd2]
      omega
    simp only [hyv, hmv, hdv]
    rw [if_pos ⟨h1, h3, h4, h5, h6⟩]
  · simp only [Bool.and_eq_true]
    exact ⟨⟨⟨⟨⟨⟨⟨isDig_digitChar hy1, isDig_digitChar hy2⟩, isDig_digitChar hy3⟩,
      isDig_digitChar hy4⟩, isDig_digitChar hm1⟩, isDig_digitChar hm2⟩,
      isDig_digitChar hd1⟩, isDig_digitChar hd2⟩

/-- Column-at-a-time `normalize_df` equals sorting the row-wise map. -/
theorem normalize_df_eq (t : List RawRow) :
    normalize_df t = List.insertionSort rowLE (t.filterMap normRow) := by
  unfold normalize_df
  simp only [List.filterMap_map]
  rfl

theorem to_int_hour_ne_24 {x : Option String} {h : Int}
    (hx : to_int_hour x = some h) : h ≠ 24 := by
  unfold to_int_hour at hx
  cases x with
  | none => exact absurd hx (by simp)
  | some s =>
    simp only at hx
    split_ifs at hx
    revert hx
    split
    · intro hx; exact absurd hx (by simp)
    · intro hx
      injection hx with hx
      subst hx
      split_ifs with h24
      · omega
      · exact h24

theorem replaceCell_idem (c : Cell) : replaceCell (replaceCell c) = replaceCell c := by
  cases c with
  | none => rfl
  | some s => by_cases h : s = "" ∨ s = "///" <;> simp [replaceCell, h]

theorem replaceObs_idem (o : Obs) : replaceObs (replaceObs o) = replaceObs o := by
  cases o
  simp only [replaceObs, replaceCell_idem]

theorem mem_normalize_WF {t : List RawRow} {r : NRow}
    (h : r ∈ normalize_df t) : WFRow r := by
  rw [normalize_df_eq] at h
  rw [List.mem_insertionSort] at h
  obtain ⟨a, _, ha⟩ := List.mem_filterMap.mp h
  unfold normRow at ha
  revert ha
  split
  · next d hh hd hhour =>
    intro ha
    injection ha with ha
    subst ha
    refine ⟨parseDate_valid hd, to_int_hour_ne_24 hhour, ?_⟩
    show replaceObs (replaceRow a).obs = (replaceRow a).obs
    simp only [replaceRow]
    exact replaceObs_idem a.obs
  · intro ha; exact absurd ha (by simp)

theorem formatDate_ne_marker (d : Date) :
    ¬((formatDate d : String) = "" ∨ (formatDate d : String) = "///") := by
  rintro (h | h) <;> exact absurd (congrArg String.data h) (by simp [formatDate])

theorem intToStrS_ne_marker (h : Int) :
    ¬((⟨intToStr h⟩ : String) = "" ∨ (⟨intToStr h⟩ : String) = "///") := by
  rintro (hc | hc)
  · exact intToStr_ne_nil h (by simpa using congrArg String.data hc)
  · have hd : intToStr h = ['/', '/', '/'] := by simpa using congrArg String.data hc
    have hm : '/' ∈ intToStr h := by rw [hd]; simp
    rcases intToStr_all_ok h '/' hm with h1 | h1
    · exact absurd h1 (by decide)
    · exact absurd h1 (by decide)

/-- A well-formed row survives the write / re-read / re-normalize cycle
unchanged. -/
theorem normRow_toRawRow {r : NRow} (h : WFRow r) : normRow (toRawRow r) = some r := by
  obtain ⟨hv, h24, hobs⟩ := h
  unfold normRow toRawRow replaceRow
  simp only [replaceCell, formatDate_ne_marker r.date, if_false, intToStrS_ne_marker r.hour]
  rw [formatDate_parse hv, to_int_hour_intToStr h24]
  simp [hobs]

/-! ## Lemmas about `dropDupKeepLast` and `lastWithKey` -/

section DedupLemmas

variable {α κ : Type} [DecidableEq κ] (key : α → κ)

theorem dropDup_cons_dup {b : α} {t : List α}
    (hc : (t.any fun c => decide (key c = key b)) = true) :
    dropDupKeepLast key (b :: t) = dropDupKeepLast key t := by
  simp [dropDupKeepLast, hc]

theorem dropDup_cons_new {b : α} {t : List α}
    (hc : (t.any fun c => decide (key c = key b)) = false) :
    dropDupKeepLast key (b :: t) = b :: dropDupKeepLast key t := by
  simp [dropDupKeepLast, hc]

theorem keys_of_any_true {b : α} {t : List α}
    (hc : (t.any fun c => decide (key c = key b)) = true) : key b ∈ t.map key := by
  obtain ⟨c, hc1, hc2⟩ := List.any_eq_true.mp hc
  rw [decide_eq_true_eq] at hc2
  exact hc2 ▸ List.mem_map_of_mem key hc1

theorem keys_of_any_false {b : α} {t : List α}
    (hc : (t.any fun c => decide (key c = key b)) = false) : key b ∉ t.map key := by
  intro hmem
  obtain ⟨c, hc1, hc2⟩ := List.mem_map.mp hmem
  have ht : (t.any fun c => decide (key c = key b)) = true :=
    List.any_eq_true.mpr ⟨c, hc1, by simp [hc2]⟩
  rw [hc] at ht
  exact absurd ht (by simp)

theorem mem_of_mem_dropDup {l : List α} {a : α}
    (h : a ∈ dropDupKeepLast key l) : a ∈ l := by
  induction l with
  | nil => simp [dropDupKeepLast] at h
  | cons b t ih =>
    cases hc : (t.any fun c => decide (key c = key b)) with
    | true =>
      rw [dropDup_cons_dup key hc] at h
      exact List.mem_cons_of_mem b (ih h)
    | false =>
      rw [dropDup_cons_new key hc] at h
      rcases List.mem_cons.mp h with rfl | h2
      · exact List.mem_cons_self _ _
      · exact List.mem_cons_of_mem b (ih h2)

theorem lastWithKey_append (k : κ) (l1 l2 : List α) :
    lastWithKey key k (l1 ++ l2) =
      match lastWithKey key k l2 with
      | some b => some b
      | none => lastWithKey key k l1 := by
  induction l1 with
  | nil =>
    simp only [List.nil_append]
    cases lastWithKey key k l2 <;> rfl
  | cons a t ih =>
    simp only [List.cons_append, lastWithKey, List.append_eq]
    rw [ih]
    cases lastWithKey key k l2 <;> cases lastWithKey key k t <;> rfl

theorem lastWithKey_isSome_iff (k : κ) (l : List α) :
    (lastWithKey key k l).isSome = true ↔ k ∈ l.map key := by
  induction l with
  | nil => simp [lastWithKey]
  | cons a t ih =>
    simp only [lastWithKey, List.map_cons, List.mem_cons]
    cases hlk : lastWithKey key k t with
    | some b =>
      rw [hlk] at ih
      simp only [Option.isSome_some, true_iff] at ih ⊢
      exact Or.inr ih
    | none =>
      rw [hlk] at ih
      simp only [Option.isSome_none, Bool.false_eq_true, false_iff] at ih
      by_cases hk : key a = k
      · simp [hk]
      · simp only [hk, if_false, Option.isSome_none, Bool.false_eq_true, false_iff]
        rintro (rfl | h)
        · exact hk rfl
        · exact ih h

theorem lastWithKey_some {k : κ} {l : List α} {a : α}
    (h : lastWithKey key k l = some a) : key a = k ∧ a ∈ l := by
  induction l with
  | nil => simp [lastWithKey] at h
  | cons b t ih =>
    simp only [lastWithKey] at h
    cases hlk : lastWithKey key k t with
    | some c =>
      rw [hlk] at h
      injection h with h
      subst h
      obtain ⟨h1, h2⟩ := ih hlk
      exact ⟨h1, List.mem_cons_of_mem b h2⟩
    | none =>
      rw [hlk] at h
      split_ifs at h with hk
      injection h with h
      subst h
      exact ⟨hk, List.mem_cons_self _ _⟩

theorem mem_dropDup_iff {l : List α} {a : α} :
    a ∈ dropDupKeepLast key l ↔ lastWithKey key (key a) l = some a := by
  induction l with
  | nil => simp [dropDupKeepLast, lastWithKey]
  | cons b t ih =>
    cases hc : (t.any fun c => decide (key c = key b)) with
    | true =>
      rw [dropDup_cons_dup key hc]
      have hkeyb := keys_of_any_true key hc
      simp only [lastWithKey]
      cases hlk : lastWithKey key (key a) t with
      | some x => rw [hlk] at ih; simp [ih]
      | none =>
        rw [hlk] at ih
        rw [ih]
        by_cases hk : key b = key a
        · exfalso
          have hs : (lastWithKey key (key a) t).isSome = true :=
            (lastWithKey_isSome_iff key _ _).mpr (hk ▸ hkeyb)
          rw [hlk] at hs
          exact absurd hs (by simp)
        · simp [hk]
    | false =>
      rw [dropDup_cons_new key hc]
      have hnotin := keys_of_any_false key hc
      simp only [List.mem_cons, lastWithKey]
      cases hlk : lastWithKey key (key a) t with
      | some x =>
        rw [hlk] at ih
        rw [ih]
        constructor
        · rintro (rfl | h)
          · exfalso
            obtain ⟨hx1, hx2⟩ := lastWithKey_some key hlk
            exact hnotin (hx1 ▸ List.mem_map_of_mem key hx2)
          · exact h
        · exact Or.inr
      | none =>
        rw [hlk] at ih
        rw [ih]
        by_cases hk : key b = key a
        · rw [if_pos hk]
          constructor
          · rintro (rfl | h)
            · rfl
            · exact absurd h (by simp)
          · intro h
            injection h with h
            exact Or.inl h.symm
        · rw [if_neg hk]
          constructor
          · rintro (rfl | h)
            · exact absurd rfl hk
            · exact h
          · exact Or.inr

theorem dropDup_keys_nodup (l : List α) :
    ((dropDupKeepLast key l).map key).Nodup := by
  induction l with
  | nil => simp [dropDupKeepLast]
  | cons b t ih =>
    cases hc : (t.any fun c => decide (key c = key b)) with
    | true => rw [dropDup_cons_dup key hc]; exact ih
    | false =>
      rw [dropDup_cons_new key hc]
      rw [List.map_cons, List.nodup_cons]
      refine ⟨?_, ih⟩
      intro hmem
      obtain ⟨c, hc1, hc2⟩ := List.mem_map.mp hmem
      exact keys_of_any_false key hc
        (hc2 ▸ List.mem_map_of_mem key (mem_of_mem_dropDup key hc1))

theorem lastWithKey_of_nodupkeys {l : List α} (h : (l.map key).Nodup) {a : α} :
    a ∈ l ↔ lastWithKey key (key a) l = some a := by
  constructor
  · intro hmem
    induction l with
    | nil => simp at hmem
    | cons b t ih =>
      simp only [List.map_cons, List.nodup_cons] at h
      rcases List.mem_cons.mp hmem with rfl | hmem2
      · have hnone : lastWithKey key (key a) t = none := by
          cases hlk : lastWithKey key (key a) t with
          | none => rfl
          | some x =>
            exfalso
            have hs : (lastWithKey key (key a) t).isSome = true := by rw [hlk]; rfl
            exact h.1 ((lastWithKey_isSome_iff key _ _).mp hs)
        simp [lastWithKey, hnone]
      · have h2 := ih h.2 hmem2
        simp [lastWithKey, h2]
  · intro h2
    exact (lastWithKey_some key h2).2

end DedupLemmas

/-! ## Properties of `mergeTables` -/

theorem mergeTables_sorted (dfOld dfNew : List NRow) :
    List.Sorted rowLE (mergeTables dfOld dfNew) :=
  List.sorted_insertionSort rowLE _

theorem mergeTables_keys_nodup (dfOld dfNew : List NRow) :
    ((mergeTables dfOld dfNew).map keyOf).Nodup := by
  have hperm : List.Perm (mergeTables dfOld dfNew) (dropDupKeepLast keyOf (dfOld ++ dfNew)) :=
    List.perm_insertionSort rowLE _
  exact ((hperm.map keyOf).nodup_iff).mpr (dropDup_keys_nodup keyOf _)

theorem mem_mergeTables {dfOld dfNew : List NRow} {r : NRow} :
    r ∈ mergeTables dfOld dfNew ↔
      lastWithKey keyOf (keyOf r) (dfOld ++ dfNew) = some r := by
  rw [mergeTables, List.mem_insertionSort, mem_dropDup_iff]

theorem sorted_rowLT {l : List NRow} (h1 : List.Sorted rowLE l)
    (h2 : (l.map keyOf).Nodup) : List.Sorted rowLT l := by
  have h3 : l.Pairwise fun a b => keyOf a ≠ keyOf b := List.pairwise_map.mp h2
  exact (h1.and h3).imp fun hab => ⟨hab.1, hab.2⟩

/-- Two sorted tables with duplicate-free keys that are permutations of one
another are equal. -/
theorem eq_of_perm_sorted_keys {l1 l2 : List NRow} (hp : List.Perm l1 l2)
    (h1 : List.Sorted rowLE l1) (h2 : List.Sorted rowLE l2)
    (hn : (l1.map keyOf).Nodup) : l1 = l2 := by
  have hn2 : (l2.map keyOf).Nodup := ((hp.map keyOf).nodup_iff).mp hn
  exact List.eq_of_perm_of_sorted (r := rowLT) hp (sorted_rowLT h1 hn) (sorted_rowLT h2 hn2)

/-- The merge core absorbs a second application of the same new data. -/
theorem mergeTables_idem (dfOld dfNew : List NRow) :
    mergeTables (mergeTables dfOld dfNew) dfNew = mergeTables dfOld dfNew := by
  have hMnodup := mergeTables_keys_nodup dfOld dfNew
  have hmem : ∀ r, r ∈ dropDupKeepLast keyOf (mergeTables dfOld dfNew ++ dfNew) ↔
      r ∈ mergeTables dfOld dfNew := by
    intro r
    rw [mem_dropDup_iff, lastWithKey_append]
    cases hN : lastWithKey keyOf (keyOf r) dfNew with
    | some b =>
      simp only
      rw [mem_mergeTables, lastWithKey_append, hN]
    | none =>
      simp only
      rw [← lastWithKey_of_nodupkeys keyOf hMnodup]
  have hnodup1 : (dropDupKeepLast keyOf (mergeTables dfOld dfNew ++ dfNew)).Nodup :=
    (dropDup_keys_nodup keyOf _).of_map
  have hnodupM : (mergeTables dfOld dfNew).Nodup := hMnodup.of_map
  have hperm : List.Perm (dropDupKeepLast keyOf (mergeTables dfOld dfNew ++ dfNew))
      (mergeTables dfOld dfNew) :=
    (List.perm_ext_iff_of_nodup hnodup1 hnodupM).mpr hmem
  apply eq_of_perm_sorted_keys
  · exact (List.perm_insertionSort rowLE _).trans hperm
  · exact List.sorted_insertionSort rowLE _
  · exact mergeTables_sorted dfOld dfNew
  · have hperm2 : List.Perm (mergeTables (mergeTables dfOld dfNew) dfNew)
        (dropDupKeepLast keyOf (mergeTables dfOld dfNew ++ dfNew)) :=
      List.perm_insertionSort rowLE _
    exact ((hperm2.map keyOf).nodup_iff).mpr (dropDup_keys_nodup keyOf _)

/-! ## Helper lemmas for the claims about merging and importing -/

theorem filterMap_eq_self {α : Type} {f : α → Option α} :
    ∀ {l : List α}, (∀ a ∈ l, f a = some a) → l.filterMap f = l := by
  intro l
  induction l with
  | nil => intro _; rfl
  | cons a t ih =>
    intro h
    rw [List.filterMap_cons, h a (List.mem_cons_self _ _), ih fun b hb => h b (List.mem_cons_of_mem a hb)]

/-- Re-reading and re-normalizing a written table gives it back. -/
theorem normalize_toRawTable {M : List NRow} (hs : List.Sorted rowLE M)
    (hwf : ∀ r ∈ M, WFRow r) : normalize_df (toRawTable M) = M := by
  rw [normalize_df_eq]
  unfold toRawTable
  rw [List.filterMap_map]
  have hfm : M.filterMap (normRow ∘ toRawRow) = M :=
    filterMap_eq_self fun a ha => normRow_toRawRow (hwf a ha)
  rw [hfm]
  exact hs.insertionSort_eq

theorem mem_mergeTables_src {dfOld dfNew : List NRow} {r : NRow}
    (h : r ∈ mergeTables dfOld dfNew) : r ∈ dfOld ++ dfNew :=
  (lastWithKey_some keyOf (mem_mergeTables.mp h)).2

theorem keys_dropDup {α κ : Type} [DecidableEq κ] (key : α → κ) (l : List α) (k : κ) :
    k ∈ (dropDupKeepLast key l).map key ↔ k ∈ l.map key := by
  constructor
  · intro h
    obtain ⟨a, ha, rfl⟩ := List.mem_map.mp h
    exact List.mem_map_of_mem key (mem_of_mem_dropDup key ha)
  · intro h
    have hs := (lastWithKey_isSome_iff key k l).mpr h
    obtain ⟨a, ha⟩ := Option.isSome_iff_exists.mp hs
    obtain ⟨hk, _⟩ := lastWithKey_some key ha
    subst hk
    exact List.mem_map_of_mem key ((mem_dropDup_iff key).mpr ha)

theorem mergeTables_keys {dfOld dfNew : List NRow} (k : Key) :
    k ∈ (mergeTables dfOld dfNew).map keyOf ↔ k ∈ (dfOld ++ dfNew).map keyOf := by
  have hperm : List.Perm (mergeTables dfOld dfNew) (dropDupKeepLast keyOf (dfOld ++ dfNew)) :=
    List.perm_insertionSort rowLE _
  rw [(hperm.map keyOf).mem_iff]
  exact keys_dropDup keyOf _ k

/-- A result row whose key occurs in the new data is the last such row of
the new data (in particular it comes from the new data, not the old). -/
theorem mergeTables_new_wins {dfOld dfNew : List NRow} {r : NRow}
    (hr : r ∈ mergeTables dfOld dfNew) (hk : keyOf r ∈ dfNew.map keyOf) :
    lastWithKey keyOf (keyOf r) dfNew = some r ∧ r ∈ dfNew := by
  have h1 := mem_mergeTables.mp hr
  rw [lastWithKey_append] at h1
  cases hN : lastWithKey keyOf (keyOf r) dfNew with
  | none =>
    exfalso
    have hs := (lastWithKey_isSome_iff keyOf (keyOf r) dfNew).mpr hk
    rw [hN] at hs
    exact absurd hs (by simp)
  | some b =>
    rw [hN] at h1
    simp only at h1
    injection h1 with h1
    subst h1
    exact ⟨rfl, (lastWithKey_some keyOf hN).2⟩

/-- Frame property of the merge: an old row whose key is untouched by the
new data survives unchanged. -/
theorem mergeTables_frame {dfOld dfNew : List NRow} {r : NRow}
    (hO : (dfOld.map keyOf).Nodup) (hr : r ∈ dfOld)
    (hk : keyOf r ∉ dfNew.map keyOf) : r ∈ mergeTables dfOld dfNew := by
  rw [mem_mergeTables, lastWithKey_append]
  have hN : lastWithKey keyOf (keyOf r) dfNew = none := by
    cases h2 : lastWithKey keyOf (keyOf r) dfNew with
    | none => rfl
    | some x =>
      exfalso
      have hs : (lastWithKey keyOf (keyOf r) dfNew).isSome = true := by rw [h2]; rfl
      exact hk ((lastWithKey_isSome_iff keyOf _ _).mp hs)
  rw [hN]
  exact (lastWithKey_of_nodupkeys keyOf hO).mp hr

theorem lookup_insert_or_replace (db : List DbRow) (r : DbRow) :
    lookupKey (insert_or_replace db r) (dkeyOf r) = some r := by
  unfold lookupKey insert_or_replace
  induction db with
  | nil => simp [List.find?]
  | cons x t ih =>
    by_cases hx : dkeyOf x = dkeyOf r
    · have hcond : (!decide (dkeyOf x = dkeyOf r)) = false := by simp [hx]
      simp only [List.filter_cons, hcond, Bool.false_eq_true, if_false]
      exact ih
    · have hcond : (!decide (dkeyOf x = dkeyOf r)) = true := by simp [hx]
      simp only [List.filter_cons, hcond, if_true, List.cons_append]
      rw [List.find?_cons_of_neg]
      · exact ih
      · simp [hx]

theorem insert_or_replace_keys_nodup {db : List DbRow} (r : DbRow)
    (h : (db.map dkeyOf).Nodup) :
    ((insert_or_replace db r).map dkeyOf).Nodup := by
  unfold insert_or_replace
  rw [List.map_append, List.nodup_append]
  refine ⟨?_, by simp, ?_⟩
  · exact ((List.filter_sublist db).map dkeyOf).nodup h
  · intro k hk
    obtain ⟨x, hx, rfl⟩ := List.mem_map.mp hk
    have := List.of_mem_filter hx
    simp only [Bool.not_eq_true', decide_eq_false_iff_not] at this
    simpa using this

theorem import_csv_rows_nodup :
    ∀ (rows : List SRow) (db db2 : List DbRow), (db.map dkeyOf).Nodup →
      import_csv_rows db rows = some db2 → (db2.map dkeyOf).Nodup := by
  intro rows
  induction rows with
  | nil =>
    intro db db2 h him
    simp only [import_csv_rows] at him
    injection him with him
    exact him ▸ h
  | cons r rs ih =>
    intro db db2 h him
    simp only [import_csv_rows, import_row] at him
    split_ifs at him with hsk
    · exact ih db db2 h him
    · revert him
      cases pyIntParse r.hour.toList with
      | none => intro him; exact absurd him (by simp)
      | some hh =>
        intro him
        exact ih _ db2 (insert_or_replace_keys_nodup _ h) him

theorem filter_key_len_le_one {α κ : Type} [DecidableEq κ] {key : α → κ}
    {l : List α} (h : (l.map key).Nodup) (k : κ) :
    (l.filter fun a => decide (key a = k)).length ≤ 1 := by
  induction l with
  | nil => simp
  | cons a t ih =>
    rw [List.map_cons, List.nodup_cons] at h
    by_cases hk : key a = k
    · have hnil : (t.filter fun b => decide (key b = k)) = [] := by
        rw [List.filter_eq_nil_iff]
        intro b hb
        simp only [decide_eq_true_eq]
        intro hbk
        have hab : key a = key b := by rw [hk, hbk]
        exact h.1 (by rw [hab]; exact List.mem_map_of_mem key hb)
      simp [List.filter_cons, hk, hnil]
    · simpa [List.filter_cons, hk] using ih h.2

/-- Both branches of the upsert end in the dedup + sort, so the written
table always has duplicate-free keys. -/
theorem upsert_keys_nodup (dfOldCsv : Option (List RawRow)) (dfNew : List RawRow) :
    ((upsert_to_processed_csv dfOldCsv dfNew).map keyOf).Nodup := by
  cases dfOldCsv with
  | none => exact mergeTables_keys_nodup _ _
  | some dfOld => exact mergeTables_keys_nodup _ _

theorem sumYear_cons (y : Nat) (p : Nat × Option ℚ) (pl : List (Nat × Option ℚ)) :
    sumYear y (p :: pl) =
      (if p.1 = y then (p.2.getD 0) else 0) + sumYear y pl := by
  unfold sumYear
  by_cases hp : p.1 = y
  · rw [List.filter_cons_of_pos (by simp [hp]), if_pos hp]
    cases p2 : p.2 with
    | none => simp [List.filterMap_cons, p2]
    | some g => simp [List.filterMap_cons, p2]
  · rw [List.filter_cons_of_neg (by simp [hp]), if_neg hp]
    ring_nf

/-- Index-wise characterisation of `gddCumsum`: the base columns are kept,
and the cumulative value at index `i` (present exactly when the row's GDD
is present) is the accumulator for the row's year plus the sum of the
present GDD values of the rows up to and including index `i` that share
the year. -/
theorem gddCumsum_get (acc : Nat → ℚ) (l : List GRow2) (i : Nat) :
    (gddCumsum acc l)[i]? = (l[i]?).map fun r =>
      (⟨r.date, r.tempAvg, r.rest, r.dateDt, r.gdd,
        r.gdd.map fun _ => acc r.dateDt.y +
          sumYear r.dateDt.y ((l.take (i + 1)).map projG2)⟩ : GRow3) := by
  induction l generalizing acc i with
  | nil => simp [gddCumsum]
  | cons r rs ih =>
    cases hg : r.gdd with
    | none =>
      cases i with
      | zero =>
        simp only [gddCumsum, hg, List.getElem?_cons_zero, Option.map_some']
        simp [hg]
      | succ j =>
        simp only [gddCumsum, hg, List.getElem?_cons_succ]
        rw [ih]
        cases hrj : rs[j]? with
        | none => rfl
        | some r2 =>
          simp only [Option.map_some']
          have htake : (r :: rs).take (j + 1 + 1) = r :: rs.take (j + 1) :=
            List.take_succ_cons
          rw [htake]
          simp only [List.map_cons, sumYear_cons, projG2, hg]
          simp
    | some g =>
      cases i with
      | zero =>
        simp only [gddCumsum, hg, List.getElem?_cons_zero, Option.map_some']
        have htake : (r :: rs).take 1 = [r] := rfl
        rw [htake]
        simp only [List.map_cons, List.map_nil, sumYear_cons, projG2, hg]
        simp [sumYear, hg]
      | succ j =>
        simp only [gddCumsum, hg, List.getElem?_cons_succ]
        rw [ih]
        cases hrj : rs[j]? with
        | none => rfl
        | some r2 =>
          simp only [Option.map_some']
          have htake : (r :: rs).take (j + 1 + 1) = r :: rs.take (j + 1) :=
            List.take_succ_cons
          rw [htake]
          simp only [List.map_cons, sumYear_cons, projG2, hg]
          by_cases hy : r.dateDt.y = r2.dateDt.y
          · simp only [hy, if_pos rfl, if_true]
            congr 1
            cases hg2 : r2.gdd with
            | none => rfl
            | some g2 =>
              simp only [GRow3.mk.injEq, Option.getD_some, Option.some.injEq, true_and]
              ring_nf
          · simp only [hy, if_neg hy]
            congr 1
            cases hg2 : r2.gdd with
            | none => rfl
            | some g2 =>
              rw [if_neg fun hyy => hy hyy.symm]
              simp only [GRow3.mk.injEq, Option.some.injEq, if_false, true_and]
              ring_nf

/-- `gddCumsum` keeps the base columns (projection view). -/
theorem gddCumsum_proj (acc : Nat → ℚ) (l : List GRow2) :
    (gddCumsum acc l).map projG3 = l.map projG2 := by
  induction l generalizing acc with
  | nil => rfl
  | cons r rs ih =>
    cases hg : r.gdd with
    | none => simp [gddCumsum, hg, projG3, projG2, ih]
    | some g => simp [gddCumsum, hg, projG3, projG2, ih]

theorem gddCumsum_length (acc : Nat → ℚ) (l : List GRow2) :
    (gddCumsum acc l).length = l.length := by
  have := congrArg List.length (gddCumsum_proj acc l)
  simpa using this

theorem add_gdd_eq (daily_df : List DRow) (base_temp : ℚ) :
    add_gdd_columns daily_df base_temp = gddCumsum (fun _ => 0) (gddPrep daily_df base_temp) :=
  rfl

theorem gddCumsum_forget (acc : Nat → ℚ) (l : List GRow2) :
    (gddCumsum acc l).map forget3 = l.map forget2 := by
  induction l generalizing acc with
  | nil => rfl
  | cons r rs ih =>
    cases hg : r.gdd with
    | none => simp [gddCumsum, hg, forget3, forget2, ih]
    | some g => simp [gddCumsum, hg, forget3, forget2, ih]

theorem mem_gddPrep {daily_df : List DRow} {base_temp : ℚ} {r : GRow2}
    (h : r ∈ gddPrep daily_df base_temp) :
    gddStartLE r.dateDt ∧ r.gdd = r.tempAvg.map fun t => max 0 (t - base_temp) := by
  obtain ⟨r1, hr1, rfl⟩ := List.mem_map.mp h
  have hf := List.of_mem_filter hr1
  rw [decide_eq_true_eq] at hf
  exact ⟨hf, rfl⟩

/-- The base columns of the GDD output are exactly the (sorted) rows on or
after 04-01 among the date-valid input rows. -/
theorem add_gdd_forget (daily_df : List DRow) (base_temp : ℚ) :
    (add_gdd_columns daily_df base_temp).map forget3 =
      (List.insertionSort gRowLE (daily_df.filterMap fun r =>
        (parseDate r.date).map fun d => GRow1.mk r.date r.tempAvg r.rest d)).filter
        fun r => decide (gddStartLE r.dateDt) := by
  rw [add_gdd_eq, gddCumsum_forget]
  unfold gddPrep
  rw [List.map_map]
  have : (forget2 ∘ fun r => GRow2.mk r.date r.tempAvg r.rest r.dateDt
      (r.tempAvg.map fun t => max 0 (t - base_temp))) = id := by
    funext r
    rfl
  rw [this, List.map_id]

theorem mem_add_gdd_of_getElem {daily_df : List DRow} {base_temp : ℚ} {i : Nat} {r3 : GRow3}
    (h : (add_gdd_columns daily_df base_temp)[i]? = some r3) :
    ∃ r2, (gddPrep daily_df base_temp)[i]? = some r2 ∧
      r3 = ⟨r2.date, r2.tempAvg, r2.rest, r2.dateDt, r2.gdd,
        r2.gdd.map fun _ =>
          sumYear r2.dateDt.y (((gddPrep daily_df base_temp).take (i + 1)).map projG2)⟩ := by
  rw [add_gdd_eq, gddCumsum_get] at h
  cases h2 : (gddPrep daily_df base_temp)[i]? with
  | none => rw [h2] at h; exact absurd h (by simp)
  | some r2 =>
    rw [h2] at h
    simp only [Option.map_some'] at h
    injection h with h
    refine ⟨r2, rfl, ?_⟩
    rw [← h]
    simp

theorem mem_add_gdd {daily_df : List DRow} {base_temp : ℚ} {r3 : GRow3}
    (h : r3 ∈ add_gdd_columns daily_df base_temp) :
    ∃ r2 ∈ gddPrep daily_df base_temp,
      r3.date = r2.date ∧ r3.tempAvg = r2.tempAvg ∧ r3.dateDt = r2.dateDt ∧
      r3.gdd = r2.gdd := by
  obtain ⟨i, hi⟩ := List.mem_iff_getElem?.mp h
  obtain ⟨r2, hr2, rfl⟩ := mem_add_gdd_of_getElem hi
  exact ⟨r2, List.mem_iff_getElem?.mpr ⟨i, hr2⟩, rfl, rfl, rfl, rfl⟩

/-- GDD values in the output are clipped at zero. -/
theorem add_gdd_nonneg {daily_df : List DRow} {base_temp : ℚ} {r3 : GRow3}
    (h : r3 ∈ add_gdd_columns daily_df base_temp) {g : ℚ} (hg : r3.gdd = some g) :
    0 ≤ g := by
  obtain ⟨r2, hr2, _, hta, _, hgdd⟩ := mem_add_gdd h
  rw [hgdd] at hg
  rw [(mem_gddPrep hr2).2] at hg
  cases hta2 : r2.tempAvg with
  | none => rw [hta2] at hg; exact absurd hg (by simp)
  | some t =>
    rw [hta2] at hg
    simp only [Option.map_some', Option.some.injEq] at hg
    rw [← hg]
    exact le_max_left 0 _

/-- The cumulative column expressed over the output list itself. -/
theorem add_gdd_cum {daily_df : List DRow} {base_temp : ℚ} {i : Nat} {r3 : GRow3}
    (h : (add_gdd_columns daily_df base_temp)[i]? = some r3) :
    r3.cum = r3.gdd.map fun _ =>
      sumYear r3.dateDt.y
        (((add_gdd_columns daily_df base_temp).take (i + 1)).map projG3) := by
  obtain ⟨r2, hr2, rfl⟩ := mem_add_gdd_of_getElem h
  have hproj : ((add_gdd_columns daily_df base_temp).take (i + 1)).map projG3 =
      ((gddPrep daily_df base_temp).take (i + 1)).map projG2 := by
    rw [List.map_take, List.map_take, add_gdd_eq, gddCumsum_proj]
  rw [hproj]

/-- Monotonicity of the cumulative GDD along the output, within a year. -/
theorem add_gdd_cum_mono {daily_df : List DRow} {base_temp : ℚ} {i j : Nat}
    {ri rj : GRow3} (hij : i ≤ j)
    (hi : (add_gdd_columns daily_df base_temp)[i]? = some ri)
    (hj : (add_gdd_columns daily_df base_temp)[j]? = some rj)
    (hy : ri.dateDt.y = rj.dateDt.y)
    {a b : ℚ} (ha : ri.cum = some a) (hb : rj.cum = some b) : a ≤ b := by
  rw [add_gdd_cum hi] at ha
  rw [add_gdd_cum hj] at hb
  cases hgi : ri.gdd with
  | none => rw [hgi] at ha; exact absurd ha (by simp)
  | some gi =>
  cases hgj : rj.gdd with
  | none => rw [hgj] at hb; exact absurd hb (by simp)
  | some gj =>
  rw [hgi] at ha
  rw [hgj] at hb
  simp only [Option.map_some', Option.some.injEq] at ha hb
  rw [← ha, ← hb, hy]
  unfold sumYear
  apply List.Sublist.sum_le_sum
  · have h1 : List.Sublist ((add_gdd_columns daily_df base_temp).take (i + 1))
        ((add_gdd_columns daily_df base_temp).take (j + 1)) :=
      List.take_sublist_take_left _ (by omega)
    exact ((h1.map projG3).filter _).filterMap _
  · intro q hq
    obtain ⟨p, hp, hpq⟩ := List.mem_filterMap.mp hq
    have hp2 := (List.mem_filter.mp hp).1
    obtain ⟨s, hs, rfl⟩ := List.mem_map.mp hp2
    have hsout : s ∈ add_gdd_columns daily_df base_temp :=
      List.mem_of_mem_take hs
    exact add_gdd_nonneg hsout hpq

/-! ## Helper lemmas for C8 (`to_int_hour` against its numeric reading) -/

theorem truncQ_neg_of_nonneg {q : ℚ} (h : 0 ≤ q) : truncQ (-q) = -⌊q⌋ := by
  unfold truncQ
  by_cases h2 : (0 : ℚ) ≤ -q
  · have hq0 : q = 0 := le_antisymm (by linarith) h
    subst hq0
    simp
  · simp [h2]

theorem truncQ_signed (neg : Bool) (n f k : Nat) (hf : f < 10 ^ k) :
    truncQ ((if neg = true then (-1 : ℚ) else 1) * ((n : ℚ) + (f : ℚ) / (10 : ℚ) ^ k)) =
      if neg = true then -(n : Int) else (n : Int) := by
  have hfr0 : (0 : ℚ) ≤ (f : ℚ) / (10 : ℚ) ^ k :=
    div_nonneg (by positivity) (by positivity)
  have hfr1 : (f : ℚ) / (10 : ℚ) ^ k < 1 := by
    rw [div_lt_one (by positivity)]
    have : (f : ℚ) < ((10 : ℚ) ^ k : ℚ) := by exact_mod_cast hf
    simpa using this
  have hq0 : (0 : ℚ) ≤ (n : ℚ) + (f : ℚ) / (10 : ℚ) ^ k := by positivity
  have hfl : ⌊(n : ℚ) + (f : ℚ) / (10 : ℚ) ^ k⌋ = (n : Int) := by
    rw [Int.floor_eq_iff]
    constructor
    · push_cast
      linarith
    · push_cast
      linarith
  cases neg with
  | false =>
    simp only [Bool.false_eq_true, if_false, one_mul]
    unfold truncQ
    rw [if_pos hq0, hfl]
  | true =>
    simp only [if_true, neg_one_mul]
    rw [truncQ_neg_of_nonneg hq0, hfl]

/-- `int(float(s))` equals the truncation of the exact rational value. -/
theorem intFloat_eq_trunc (l : List Char) :
    intFloat l = (parseFloatQ l).map truncQ := by
  unfold intFloat parseFloatQ
  cases hsp : splitNumber l with
  | none => rfl
  | some p =>
    obtain ⟨neg, ds, fs⟩ := p
    simp only [Option.map_some']
    rw [truncQ_signed neg (digitsVal ds) (digitsVal fs) fs.length (digitsVal_lt fs)]

theorem to_int_hour_eq_spec (x : Option String) :
    to_int_hour x = to_int_hour_spec x := by
  cases x with
  | none => rfl
  | some s =>
    unfold to_int_hour to_int_hour_spec
    simp only
    split_ifs
    · rfl
    · rfl
    · rw [intFloat_eq_trunc]
      cases parseFloatQ (pyStrip s.toList) with
      | none => rfl
      | some q => rfl

/-- A scraped hour-24 row gets the same key as the hour-0 row of the same
day. -/
theorem normRow_key_24_0 (r24 r0 : RawRow) (hd : r24.date = r0.date)
    (h24 : r24.hour = some "24") (h0 : r0.hour = some "0") :
    (normRow r24).map keyOf = (normRow r0).map keyOf := by
  unfold normRow replaceRow
  simp only [hd, h24, h0]
  have h1 : to_int_hour (replaceCell (some "24")) = some 0 := by decide
  have h2 : to_int_hour (replaceCell (some "0")) = some 0 := by decide
  rw [h1, h2]
  cases hpd : parseDate (replaceCell r0.date) with
  | none => rfl
  | some d => simp [keyOf]

/-! ## Helper lemma for C10 -/

theorem optYear_true (o : Option Date) (p : Date → Prop) [DecidablePred p] :
    (match o with | some d => decide (p d) | none => false) = true ↔
      ∃ d, o = some d ∧ p d := by
  cases o with
  | none => simp
  | some d => simp

theorem mem_filter_by_time_window {src : List FRow} {year : Nat} {month : Option Nat}
    {start_hour end_hour : Int} {r : FRow} :
    r ∈ filter_by_time_window src year month start_hour end_hour ↔
      ∃ r0 ∈ src, ∃ d : Date, r0.dateDt = some d ∧ d.y = year ∧
        (∀ m, month = some m → d.m = m) ∧
        (if start_hour ≤ end_hour then start_hour ≤ r0.hour ∧ r0.hour ≤ end_hour
         else start_hour ≤ r0.hour ∨ r0.hour ≤ end_hour) ∧
        r = { r0 with date := some (formatDate d) } := by
  unfold filter_by_time_window
  simp only [List.mem_map, List.mem_filter]
  constructor
  · rintro ⟨r0, hr0, rfl⟩
    by_cases hse : start_hour ≤ end_hour
    · rw [if_pos hse] at hr0
      have hr1 := List.mem_filter.mp hr0
      rw [decide_eq_true_eq] at hr1
      cases month with
      | none =>
        have hr2 := List.mem_filter.mp hr1.1
        obtain ⟨d, hd, hdy⟩ := (optYear_true _ _).mp hr2.2
        exact ⟨r0, hr2.1, d, hd, hdy, by simp, by rw [if_pos hse]; exact hr1.2,
          by rw [hd]; rfl⟩
      | some m =>
        have hr2 := List.mem_filter.mp hr1.1
        obtain ⟨d, hd, hdm⟩ := (optYear_true _ _).mp hr2.2
        have hr3 := List.mem_filter.mp hr2.1
        obtain ⟨d2, hd2, hdy⟩ := (optYear_true _ _).mp hr3.2
        rw [hd] at hd2
        injection hd2 with hd2
        subst hd2
        refine ⟨r0, hr3.1, d, hd, hdy, ?_, by rw [if_pos hse]; exact hr1.2,
          by rw [hd]; rfl⟩
        rintro m2 hm2
        injection hm2 with hm2
        exact hm2 ▸ hdm
    · rw [if_neg hse] at hr0
      have hr1 := List.mem_filter.mp hr0
      rw [decide_eq_true_eq] at hr1
      cases month with
      | none =>
        have hr2 := List.mem_filter.mp hr1.1
        obtain ⟨d, hd, hdy⟩ := (optYear_true _ _).mp hr2.2
        exact ⟨r0, hr2.1, d, hd, hdy, by simp, by rw [if_neg hse]; exact hr1.2,
          by rw [hd]; rfl⟩
      | some m =>
        have hr2 := List.mem_filter.mp hr1.1
        obtain ⟨d, hd, hdm⟩ := (optYear_true _ _).mp hr2.2
        have hr3 := List.mem_filter.mp hr2.1
        obtain ⟨d2, hd2, hdy⟩ := (optYear_true _ _).mp hr3.2
        rw [hd] at hd2
        injection hd2 with hd2
        subst hd2
        refine ⟨r0, hr3.1, d, hd, hdy, ?_, by rw [if_neg hse]; exact hr1.2,
          by rw [hd]; rfl⟩
        rintro m2 hm2
        injection hm2 with hm2
        exact hm2 ▸ hdm
  · rintro ⟨r0, hr0, d, hd, hdy, hdm, hw, rfl⟩
    refine ⟨r0, ?_, by rw [hd]; rfl⟩
    have hbase : r0 ∈ src.filter fun r =>
        match r.dateDt with
        | some d => decide (d.y = year)
        | none => false :=
      List.mem_filter.mpr ⟨hr0, (optYear_true _ _).mpr ⟨d, hd, hdy⟩⟩
    by_cases hse : start_hour ≤ end_hour
    · rw [if_pos hse]
      rw [if_pos hse] at hw
      cases month with
      | none => exact List.mem_filter.mpr ⟨hbase, by rw [decide_eq_true_eq]; exact hw⟩
      | some m =>
        refine List.mem_filter.mpr ⟨?_, by rw [decide_eq_true_eq]; exact hw⟩
        exact List.mem_filter.mpr ⟨hbase, (optYear_true _ _).mpr ⟨d, hd, hdm m rfl⟩⟩
    · rw [if_neg hse]
      rw [if_neg hse] at hw
      cases month with
      | none => exact List.mem_filter.mpr ⟨hbase, by rw [decide_eq_true_eq]; exact hw⟩
      | some m =>
        refine List.mem_filter.mpr ⟨?_, by rw [decide_eq_true_eq]; exact hw⟩
        exact List.mem_filter.mpr ⟨hbase, (optYear_true _ _).mpr ⟨d, hd, hdm m rfl⟩⟩

/-! ## The claims -/

/-- C1: the merge/upsert routine is idempotent: writing the upsert of a
persisted table `C` with new data `N` and then upserting the same `N`
into the written CSV again leaves the persisted table unchanged
(merge(merge(C, N), N) = merge(C, N)). -/
theorem upsert_idempotent (dfOldCsv dfNew : List RawRow) :
    upsert_to_processed_csv
        (some (toRawTable (upsert_to_processed_csv (some dfOldCsv) dfNew))) dfNew =
      upsert_to_processed_csv (some dfOldCsv) dfNew := by
  have hs : List.Sorted rowLE (mergeTables (normalize_df dfOldCsv) (normalize_df dfNew)) :=
    mergeTables_sorted _ _
  have hwf : ∀ r ∈ mergeTables (normalize_df dfOldCsv) (normalize_df dfNew), WFRow r := by
    intro r hr
    rcases List.mem_append.mp (mem_mergeTables_src hr) with h | h
    · exact mem_normalize_WF h
    · exact mem_normalize_WF h
  calc upsert_to_processed_csv
        (some (toRawTable (upsert_to_processed_csv (some dfOldCsv) dfNew))) dfNew
      = mergeTables
          (normalize_df (toRawTable (mergeTables (normalize_df dfOldCsv) (normalize_df dfNew))))
          (normalize_df dfNew) := rfl
    _ = mergeTables (mergeTables (normalize_df dfOldCsv) (normalize_df dfNew))
          (normalize_df dfNew) := by rw [normalize_toRawTable hs hwf]
    _ = mergeTables (normalize_df dfOldCsv) (normalize_df dfNew) := mergeTables_idem _ _

/-- C2: on normalized tables the upsert is exactly: concatenate the old
table and the new table, deduplicate on the key `(日付, 時刻)` keeping the
last occurrence of each key, and sort ascending by the key.  The first
conjunct ties `upsert_to_processed_csv` to the merge core; the remaining
conjuncts say the result is key-sorted, has at most one row per key, and
holds exactly the last occurrence of each key of `O ++ N`. -/
theorem upsert_is_concat_dedup_sort (O N : List NRow) :
    (∀ dfOld dfNew : List RawRow,
        upsert_to_processed_csv (some dfOld) dfNew =
          mergeTables (normalize_df dfOld) (normalize_df dfNew)) ∧
    List.Sorted rowLE (mergeTables O N) ∧
    ((mergeTables O N).map keyOf).Nodup ∧
    (∀ r : NRow, r ∈ mergeTables O N ↔ lastWithKey keyOf (keyOf r) (O ++ N) = some r) :=
  ⟨fun _ _ => rfl, mergeTables_sorted O N, mergeTables_keys_nodup O N,
   fun _ => mem_mergeTables⟩

theorem upsert_is_concat_dedup_sort_witness :
    List.Sorted rowLE (mergeTables [wRowA] [wRowB]) :=
  (upsert_is_concat_dedup_sort [wRowA] [wRowB]).2.1

/-- C3: deduplication keeps the latest row.  For a key occurring in both
tables, the merged table's row under that key is the last row with that
key in the new data (so the new row, not the old one), and the key indeed
survives; likewise `INSERT OR REPLACE` makes the lookup of an existing
`(date, hour)` key return the newly read row. -/
theorem dedup_keeps_latest :
    (∀ (O N : List NRow) (r : NRow), r ∈ mergeTables O N → keyOf r ∈ N.map keyOf →
        lastWithKey keyOf (keyOf r) N = some r ∧ r ∈ N) ∧
    (∀ (O N : List NRow) (k : Key), k ∈ O.map keyOf → k ∈ N.map keyOf →
        k ∈ (mergeTables O N).map keyOf) ∧
    (∀ (db : List DbRow) (r : DbRow),
        lookupKey (insert_or_replace db r) (dkeyOf r) = some r) :=
  ⟨fun _ _ _ hr hk => mergeTables_new_wins hr hk,
   fun _ N k _ hN => (mergeTables_keys k).mpr
     (by rw [List.map_append]; exact List.mem_append.mpr (Or.inr hN)),
   lookup_insert_or_replace⟩

theorem dedup_keeps_latest_witness :
    (wRowB ∈ mergeTables [wRowA] [wRowB] ∧ keyOf wRowB ∈ [wRowB].map keyOf ∧
      lastWithKey keyOf (keyOf wRowB) [wRowB] = some wRowB ∧ wRowB ∈ [wRowB]) ∧
    lookupKey (insert_or_replace [wDbOld] wDbNew) (dkeyOf wDbNew) = some wDbNew :=
  ⟨⟨by decide, by decide, dedup_keeps_latest.1 [wRowA] [wRowB] wRowB (by decide) (by decide)⟩,
   dedup_keeps_latest.2.2 [wDbOld] wDbNew⟩

/-- C4: persistence is incremental.  A row of a persisted table (the
output of any run of `upsert_to_processed_csv`) whose key does not occur
in the next run's normalized new data is still present, with unchanged
values, in the table the next run writes. -/
theorem upsert_preserves_untouched_rows
    (dfOldCsv : Option (List RawRow)) (dfNew dfNew2 : List RawRow) (r : NRow)
    (hr : r ∈ upsert_to_processed_csv dfOldCsv dfNew)
    (hk : keyOf r ∉ (normalize_df dfNew2).map keyOf) :
    r ∈ upsert_to_processed_csv
      (some (toRawTable (upsert_to_processed_csv dfOldCsv dfNew))) dfNew2 := by
  cases dfOldCsv with
  | some dfOld =>
    have hs : List.Sorted rowLE (mergeTables (normalize_df dfOld) (normalize_df dfNew)) :=
      mergeTables_sorted _ _
    have hwf : ∀ x ∈ mergeTables (normalize_df dfOld) (normalize_df dfNew), WFRow x := by
      intro x hx
      rcases List.mem_append.mp (mem_mergeTables_src hx) with h | h
      · exact mem_normalize_WF h
      · exact mem_normalize_WF h
    show r ∈ mergeTables
      (normalize_df (toRawTable (mergeTables (normalize_df dfOld) (normalize_df dfNew))))
      (normalize_df dfNew2)
    rw [normalize_toRawTable hs hwf]
    exact mergeTables_frame (mergeTables_keys_nodup _ _) hr hk
  | none =>
    have hs : List.Sorted rowLE (mergeTables [] (normalize_df dfNew)) :=
      mergeTables_sorted _ _
    have hwf : ∀ x ∈ mergeTables [] (normalize_df dfNew), WFRow x := by
      intro x hx
      rcases List.mem_append.mp (mem_mergeTables_src hx) with h | h
      · exact absurd h (by simp)
      · exact mem_normalize_WF h
    show r ∈ mergeTables
      (normalize_df (toRawTable (mergeTables [] (normalize_df dfNew))))
      (normalize_df dfNew2)
    rw [normalize_toRawTable hs hwf]
    exact mergeTables_frame (mergeTables_keys_nodup _ _) hr hk

theorem upsert_preserves_untouched_rows_witness :
    wRowA ∈ upsert_to_processed_csv none [wRawA] ∧
    keyOf wRowA ∉ (normalize_df [wRaw0]).map keyOf ∧
    wRowA ∈ upsert_to_processed_csv
      (some (toRawTable (upsert_to_processed_csv none [wRawA]))) [wRaw0] :=
  ⟨by decide, by decide,
   upsert_preserves_untouched_rows none [wRawA] [wRaw0] wRowA (by decide) (by decide)⟩

/-- C5: every persisted table is keyed.  Any run of the upsert, of
`build_processed_csv` and of the SQLite import (starting from a keyed
database, as the `PRIMARY KEY` guarantees) yields a table with at most
one row per key. -/
theorem tables_keyed_unique :
    (∀ (dfOldCsv : Option (List RawRow)) (dfNew : List RawRow),
        ((upsert_to_processed_csv dfOldCsv dfNew).map keyOf).Nodup) ∧
    (∀ files : List (String × List RawRow),
        ((build_processed_csv files).map bkeyOf).Nodup) ∧
    (∀ (rows : List SRow) (db db2 : List DbRow), (db.map dkeyOf).Nodup →
        import_csv_rows db rows = some db2 → (db2.map dkeyOf).Nodup) :=
  ⟨upsert_keys_nodup,
   fun files => by unfold build_processed_csv; exact dropDup_keys_nodup bkeyOf _,
   import_csv_rows_nodup⟩

theorem tables_keyed_unique_witness :
    (([wDbOld] : List DbRow).map dkeyOf).Nodup ∧
    ((insert_or_replace [wDbOld] wDbImported).map dkeyOf).Nodup :=
  ⟨by decide,
   tables_keyed_unique.2.2 [wSRow] [wDbOld] (insert_or_replace [wDbOld] wDbImported)
     (by decide) (by decide)⟩

/-- C6: `normalize_df` replaces the missing-value markers `""` and `"///"`
by NA in every column, coerces `日付` through `to_datetime`/`strftime`
(here: a parsed calendar date, rendered back as `YYYY-MM-DD`), coerces
`時刻` through `to_int_hour`, drops every row whose date or hour key is
missing, and returns the table sorted ascending by `(日付, 時刻)`.  The
first conjunct is the row-wise reading (`normRow` does exactly the listed
cell transformations and returns `none` when a key is missing); the last
conjunct records that surviving rows carry a calendar-valid date, an hour
other than 24, and data cells free of the markers. -/
theorem normalize_df_spec (t : List RawRow) :
    normalize_df t = List.insertionSort rowLE (t.filterMap normRow) ∧
    List.Sorted rowLE (normalize_df t) ∧
    List.Perm (normalize_df t) (t.filterMap normRow) ∧
    (∀ r ∈ normalize_df t, ValidDate r.date ∧ r.hour ≠ 24 ∧ replaceObs r.obs = r.obs) := by
  refine ⟨normalize_df_eq t, ?_, ?_, fun r hr => mem_normalize_WF hr⟩
  · rw [normalize_df_eq]
    exact List.sorted_insertionSort rowLE _
  · rw [normalize_df_eq]
    exact List.perm_insertionSort rowLE _

theorem normalize_df_spec_witness :
    ValidDate (wRowA.date) ∧ wRowA.hour ≠ 24 ∧ replaceObs wRowA.obs = wRowA.obs :=
  (normalize_df_spec [wRaw24, wRawA]).2.2.2 wRowA (by decide)

/-- C7: `add_gdd_columns` keeps exactly the date-valid daily rows whose
month-day is on or after 04-01 (first conjunct: the base columns of the
output are a permutation of exactly those rows; second conjunct: every
output row is on or after 04-01), gives every row
`GDD = max(0, 気温（平均） − base_temp)` (NA propagating), gives every row
`累積GDD` equal to the running sum of the present GDD values of the rows
up to it within the same calendar year, and `base_temp` defaults to
`BASE_TEMP_DEFAULT = 10`. -/
theorem add_gdd_columns_spec (daily_df : List DRow) (base_temp : ℚ) :
    List.Perm ((add_gdd_columns daily_df base_temp).map forget3)
      ((daily_df.filterMap fun r => (parseDate r.date).map fun d =>
          GRow1.mk r.date r.tempAvg r.rest d).filter
        fun r => decide (gddStartLE r.dateDt)) ∧
    (∀ r ∈ add_gdd_columns daily_df base_temp, gddStartLE r.dateDt) ∧
    (∀ r ∈ add_gdd_columns daily_df base_temp,
        r.gdd = r.tempAvg.map fun t => max 0 (t - base_temp)) ∧
    (∀ (i : Nat) (r : GRow3), (add_gdd_columns daily_df base_temp)[i]? = some r →
        r.cum = r.gdd.map fun _ => sumYear r.dateDt.y
          (((add_gdd_columns daily_df base_temp).take (i + 1)).map projG3)) ∧
    (add_gdd_columns_default daily_df = add_gdd_columns daily_df 10 ∧
      BASE_TEMP_DEFAULT = 10) := by
  refine ⟨?_, ?_, ?_, ?_, rfl, rfl⟩
  · rw [add_gdd_forget]
    exact (List.perm_insertionSort gRowLE _).filter _
  · intro r hr
    obtain ⟨r2, hr2, _, _, hdt, _⟩ := mem_add_gdd hr
    rw [hdt]
    exact (mem_gddPrep hr2).1
  · intro r hr
    obtain ⟨r2, hr2, _, hta, _, hgdd⟩ := mem_add_gdd hr
    rw [hgdd, hta]
    exact (mem_gddPrep hr2).2
  · intro i r hir
    exact add_gdd_cum hir

theorem add_gdd_columns_spec_witness :
    ((⟨some "2026-04-02", some 0, [], ⟨2026, 4, 2⟩, some (max 0 ((0 : ℚ) - 0)),
        some (0 + max 0 ((0 : ℚ) - 0))⟩ : GRow3).cum =
      (⟨some "2026-04-02", some 0, [], ⟨2026, 4, 2⟩, some (max 0 ((0 : ℚ) - 0)),
        some (0 + max 0 ((0 : ℚ) - 0))⟩ : GRow3).gdd.map fun _ =>
          sumYear 2026 (((add_gdd_columns [wDRow] 0).take 1).map projG3)) :=
  (add_gdd_columns_spec [wDRow] 0).2.2.2.1 0
    ⟨some "2026-04-02", some 0, [], ⟨2026, 4, 2⟩, some (max 0 ((0 : ℚ) - 0)),
      some (0 + max 0 ((0 : ℚ) - 0))⟩ rfl

/-- C8: `to_int_hour` is missing exactly for a trimmed-empty string, a
case-insensitive `nan`, or a value that does not parse as a number, and
otherwise is the integer part of the numeric value with 24 mapped to 0
(first two conjuncts); consequently a scraped hour-24 row receives the
same `(日付, 時刻)` key as that day's hour-0 row (third conjunct), and the
key deduplication of the upsert leaves at most one row under that key
(fourth conjunct). -/
theorem to_int_hour_behavior :
    (∀ x : Option String, to_int_hour x = to_int_hour_spec x) ∧
    to_int_hour (some "24") = some 0 ∧
    (∀ r24 r0 : RawRow, r24.date = r0.date → r24.hour = some "24" → r0.hour = some "0" →
        (normRow r24).map keyOf = (normRow r0).map keyOf) ∧
    (∀ (t : List RawRow) (k : Key),
        ((upsert_to_processed_csv none t).filter fun r => decide (keyOf r = k)).length ≤ 1) :=
  ⟨to_int_hour_eq_spec, by decide, normRow_key_24_0,
   fun t k => filter_key_len_le_one (upsert_keys_nodup none t) k⟩

theorem to_int_hour_behavior_witness :
    (normRow wRaw24).map keyOf = (normRow wRaw0).map keyOf :=
  to_int_hour_behavior.2.2.1 wRaw24 wRaw0 rfl rfl rfl

/-- C9: in the output of `add_gdd_columns` every present GDD value is
non-negative, and within one calendar year the present `累積GDD` values
are non-decreasing along the (date-sorted) row order. -/
theorem gdd_nonneg_cumulative_monotone (daily_df : List DRow) (base_temp : ℚ) :
    (∀ r ∈ add_gdd_columns daily_df base_temp, ∀ g : ℚ, r.gdd = some g → 0 ≤ g) ∧
    (∀ (i j : Nat) (ri rj : GRow3), i ≤ j →
        (add_gdd_columns daily_df base_temp)[i]? = some ri →
        (add_gdd_columns daily_df base_temp)[j]? = some rj →
        ri.dateDt.y = rj.dateDt.y →
        ∀ a b : ℚ, ri.cum = some a → rj.cum = some b → a ≤ b) :=
  ⟨fun _ hr _ hg => add_gdd_nonneg hr hg,
   fun _ _ _ _ hij hi hj hy _ _ ha hb => add_gdd_cum_mono hij hi hj hy ha hb⟩

theorem gdd_nonneg_cumulative_monotone_witness :
    (0 : ℚ) + max 0 ((0 : ℚ) - 0) ≤ (0 : ℚ) + max 0 ((0 : ℚ) - 0) :=
  (gdd_nonneg_cumulative_monotone [wDRow] 0).2 0 0
    ⟨some "2026-04-02", some 0, [], ⟨2026, 4, 2⟩, some (max 0 ((0 : ℚ) - 0)),
      some (0 + max 0 ((0 : ℚ) - 0))⟩
    ⟨some "2026-04-02", some 0, [], ⟨2026, 4, 2⟩, some (max 0 ((0 : ℚ) - 0)),
      some (0 + max 0 ((0 : ℚ) - 0))⟩
    (by omega) rfl rfl rfl _ _ rfl rfl

/-- C10: `filter_by_time_window` keeps, among the rows of the given year
(and month, when one is given), exactly those whose hour `h` satisfies
`start_hour ≤ h ≤ end_hour` when `start_hour ≤ end_hour`, and those with
`h ≥ start_hour` or `h ≤ end_hour` when the window wraps around midnight;
the kept rows are returned with the `日付` string re-rendered from
`日付_dt`. -/
theorem filter_by_time_window_spec (src : List FRow) (year : Nat) (month : Option Nat)
    (start_hour end_hour : Int) (r : FRow) :
    r ∈ filter_by_time_window src year month start_hour end_hour ↔
      ∃ r0 ∈ src, ∃ d : Date, r0.dateDt = some d ∧ d.y = year ∧
        (∀ m, month = some m → d.m = m) ∧
        (if start_hour ≤ end_hour then start_hour ≤ r0.hour ∧ r0.hour ≤ end_hour
         else start_hour ≤ r0.hour ∨ r0.hour ≤ end_hour) ∧
        r = { r0 with date := some (formatDate d) } :=
  mem_filter_by_time_window

theorem filter_by_time_window_spec_witness :
    (⟨some "2026-02-02", some ⟨2026, 2, 2⟩, 23, []⟩ : FRow) ∈
      filter_by_time_window [wFRow] 2026 none 22 2 :=
  (filter_by_time_window_spec [wFRow] 2026 none 22 2 _).mpr
    ⟨wFRow, by decide, ⟨2026, 2, 2⟩, rfl, rfl, by simp, by decide, by decide⟩
